import Mathlib

/-
Verification of the hafen_bot specification against a shallow embedding of
the repository's Rust sources (src/src/bot/*.rs).

Modelling conventions:
- `i32`/`i64` machine integers are modelled as `Int`; wrap-around is modelled
  explicitly (`wrap32`) only where a claim's truth depends on it.
- `f64` values are modelled as `ℚ`; the square root (irrational, used only
  through `norm`/`distance`) is passed in as an explicit function argument
  `sqrt : ℚ → ℚ`, so theorems quantify over it (the real `f64::sqrt` is one
  instance, monotone up to rounding).  All other `f64` operations performed by
  the translated code paths (+, -, *, /, floor, ceil, fract, signum, round,
  comparisons) are exact on the rationals exercised here.
- Rust `BTreeMap`/`BTreeSet` are modelled as association lists with
  replace-in-place insertion (`alInsert`); this is extensionally the same
  finite map (the claims settled here do not depend on key iteration order).
- A Rust panic (`unwrap` of `None`, out-of-range `Vec` index) is modelled by
  returning `none` from an `Option`-valued function.
- The external `MapDb` cache (out of scope per the spec, §1/§6.4) is modelled
  as empty / absent, matching the `FakeMapDb` used by the repository's tests;
  the `db` fallback of `get_tile_id_by_name` is kept as an explicit function
  argument where a claim mentions it.
-/

namespace HB

/-! ## Basic geometry (src/src/bot/vec2.rs, src/src/bot/common.rs) -/

structure Vec2i where
  x : Int
  y : Int
deriving DecidableEq

structure Vec2q where
  x : ℚ
  y : ℚ
deriving DecidableEq

def Vec2i.zero : Vec2i := ⟨0, 0⟩

instance : Add Vec2i := ⟨fun a b => ⟨a.x + b.x, a.y + b.y⟩⟩

instance : Sub Vec2i := ⟨fun a b => ⟨a.x - b.x, a.y - b.y⟩⟩

def Vec2i.onlyX (x : Int) : Vec2i := ⟨x, 0⟩

def Vec2i.onlyY (y : Int) : Vec2i := ⟨0, y⟩

def Vec2i.withX (v : Vec2i) (x : Int) : Vec2i := ⟨x, v.y⟩

def Vec2i.withY (v : Vec2i) (y : Int) : Vec2i := ⟨v.x, y⟩

def Vec2i.smul (v : Vec2i) (k : Int) : Vec2i := ⟨v.x * k, v.y * k⟩

/-- `Vec2i::center`: the midpoint of the integer tile, as rationals. -/
def Vec2i.center (v : Vec2i) : Vec2q := ⟨(v.x : ℚ) + 1/2, (v.y : ℚ) + 1/2⟩

/-- `floor_div_i32` from src/src/bot/common.rs (Rust `/` truncates toward 0). -/
def floorDivI32 (lhs rhs : Int) : Int :=
  if lhs < 0 then Int.tdiv (lhs + 1) rhs - 1 else Int.tdiv lhs rhs

def Vec2i.floorDiv (v : Vec2i) (k : Int) : Vec2i :=
  ⟨floorDivI32 v.x k, floorDivI32 v.y k⟩

instance : Add Vec2q := ⟨fun a b => ⟨a.x + b.x, a.y + b.y⟩⟩

instance : Sub Vec2q := ⟨fun a b => ⟨a.x - b.x, a.y - b.y⟩⟩

def Vec2q.smul (v : Vec2q) (k : ℚ) : Vec2q := ⟨v.x * k, v.y * k⟩

/-- `Vec2f::floor`. -/
def Vec2q.floorV (v : Vec2q) : Vec2i := ⟨⌊v.x⌋, ⌊v.y⌋⟩

/-- `f64::signum` (the source never applies it to NaN; `+0.0` yields `1.0`). -/
def signumQ (q : ℚ) : ℚ := if q < 0 then -1 else 1

/-- `Vec2f::signum`. -/
def Vec2q.signumV (v : Vec2q) : Vec2q := ⟨signumQ v.x, signumQ v.y⟩

/-- `Vec2f::norm` = sqrt(x² + y²), with the square root as a parameter. -/
def normQ (sqrt : ℚ → ℚ) (v : Vec2q) : ℚ := sqrt (v.x * v.x + v.y * v.y)

/-- `Vec2f::distance`. -/
def distQ (sqrt : ℚ → ℚ) (a b : Vec2q) : ℚ := normQ sqrt (b - a)

/-! ## Association-list maps (model of `BTreeMap`) -/

def alGet {K V : Type} [DecidableEq K] : List (K × V) → K → Option V
  | [], _ => none
  | p :: rest, k => if p.1 = k then some p.2 else alGet rest k

def alInsert {K V : Type} [DecidableEq K] : List (K × V) → K → V → List (K × V)
  | [], k, v => [(k, v)]
  | p :: rest, k, v => if p.1 = k then (k, v) :: rest else p :: alInsert rest k v

def alRemove {K V : Type} [DecidableEq K] : List (K × V) → K → List (K × V)
  | [], _ => []
  | p :: rest, k => if p.1 = k then rest else p :: alRemove rest k

/-- Stable insertion into a list sorted by `lt` (model of `Vec::sort_by_key`,
which is a stable sort). -/
def insSortedBy {α : Type} (lt : α → α → Bool) (a : α) : List α → List α
  | [] => [a]
  | b :: rest => if lt b a then b :: insSortedBy lt a rest else a :: b :: rest

def sortByB {α : Type} (lt : α → α → Bool) : List α → List α
  | [] => []
  | a :: rest => insSortedBy lt a (sortByB lt rest)

/-- The tail of `Vec::dedup_by_key`, tracking the key of the last kept
element. -/
def dedupByKeyAux {α β : Type} [DecidableEq β] (key : α → β) (prev : β) : List α → List α
  | [] => []
  | b :: rest =>
    if key b = prev then dedupByKeyAux key prev rest
    else b :: dedupByKeyAux key (key b) rest

/-- `Vec::dedup_by_key`: remove all but the first of consecutive elements with
equal keys. -/
def dedupByKey {α β : Type} [DecidableEq β] (key : α → β) : List α → List α
  | [] => []
  | a :: rest => a :: dedupByKeyAux key (key a) rest

/-! ## Tiles, grids, map (src/src/bot/map.rs) -/

def GRID_SIZE : Int := 100

structure Tile where
  id : Int
  version : Int
  name : String
  color : Int
deriving DecidableEq

structure Grid where
  id : Int
  revision : Int
  segment_id : Int
  position : Vec2i
  heights : List ℚ
  tiles : List Int
deriving DecidableEq

structure GridNeighbour where
  id : Int
  offset : Vec2i
deriving DecidableEq

structure Map where
  tiles : List (Int × Tile)
  tiles_by_name : List (String × Int)
  grids : List (Int × Grid)
  grids_by_coord : List (Int × List (Vec2i × Int))
deriving DecidableEq

def Map.empty : Map := ⟨[], [], [], []⟩

def tile_pos_to_grid_pos (tile_pos : Vec2i) : Vec2i := tile_pos.floorDiv GRID_SIZE

def grid_pos_to_tile_pos (grid_pos : Vec2i) : Vec2i := grid_pos.smul GRID_SIZE

/-- `tile_pos_to_tile_index` (the source casts to `usize`; a negative
coordinate or an out-of-range index makes the Rust `Vec` index panic, which
the model folds into `none` at the lookup site). -/
def tile_pos_to_tile_index (tile_pos : Vec2i) : Int := tile_pos.x + tile_pos.y * GRID_SIZE

def tileListGet (tiles : List Int) (tile_pos : Vec2i) : Option Int :=
  let idx := tile_pos_to_tile_index tile_pos
  if 0 ≤ idx then tiles.get? idx.toNat else none

/-- `Map::set_tile`: unconditional insertion into both in-memory indexes (the
version check done by the SQL cache is not replicated in memory). -/
def Map.set_tile (m : Map) (tile : Tile) : Map :=
  { m with
    tiles_by_name := alInsert m.tiles_by_name tile.name tile.id
    tiles := alInsert m.tiles tile.id tile }

/-- `Map::get_tile_id_by_name`; `db` is the external cache's
`get_tile_id_by_name` (spec §6.4). -/
def Map.get_tile_id_by_name (db : String → Option Int) (m : Map) (name : String) : Option Int :=
  match alGet m.tiles_by_name name with
  | some id => some id
  | none => db name

def Map.get_tile_by_id (m : Map) (id : Int) : Option Tile := alGet m.tiles id

/-- `Map::get_grid` (private helper). -/
def Map.get_grid (m : Map) (segment_id : Int) (grid_pos : Vec2i) : Option Grid :=
  match alGet m.grids_by_coord segment_id with
  | none => none
  | some seg =>
    match alGet seg grid_pos with
    | none => none
    | some id => alGet m.grids id

def Map.get_grid_by_id (m : Map) (id : Int) : Option Grid := alGet m.grids id

/-- `Map::get_tile`.  The `MapDb` fallback (source lines 114-129) is modelled
as the empty cache and therefore yields `none`. -/
def Map.get_tile (m : Map) (segment_id : Int) (tile_pos : Vec2i) : Option Int :=
  let grid_pos := tile_pos_to_grid_pos tile_pos
  match m.get_grid segment_id grid_pos with
  | some grid => tileListGet grid.tiles (tile_pos - grid_pos_to_tile_pos grid_pos)
  | none => none

/-- One iteration of the segment-merge loop of `Map::add_grid` (source lines
71-82).  `none` models the panics: `grids_by_coord.remove(..).unwrap()`,
`grids.get_mut(..).unwrap()` and `grids_by_coord.get_mut(&target).unwrap()`. -/
def Map.mergeSegment (tsid : Int) (toff tpos : Vec2i) (m : Map)
    (seg : Int × Vec2i × Vec2i) : Option Map :=
  let sid := seg.1
  let off := seg.2.1
  let pos := seg.2.2
  let shift := tpos - toff + off - pos
  match alGet m.grids_by_coord sid with
  | none => none
  | some segment_grids =>
    let m1 := { m with grids_by_coord := alRemove m.grids_by_coord sid }
    segment_grids.foldlM (fun (acc : Map) entry =>
      let grid_id := entry.2
      match alGet acc.grids grid_id with
      | none => none
      | some g =>
        let g2 := { g with segment_id := tsid, position := g.position + shift,
                           revision := g.revision + 1 }
        let acc2 := { acc with grids := alInsert acc.grids grid_id g2 }
        match alGet acc2.grids_by_coord tsid with
        | none => none
        | some target_map =>
          some { acc2 with grids_by_coord :=
                   alInsert acc2.grids_by_coord tsid (alInsert target_map g2.position grid_id) })
      m1

def USIZE_MAX : Int := 2 ^ 64 - 1

/-- The key of the second sort in `Map::add_grid`:
`(usize::MAX - grids_by_coord[sid].len(), sid)`, compared lexicographically.
(The source indexes `grids_by_coord` unconditionally; every listed segment id
comes from an existing grid, so the entry is present in any reachable state.) -/
def addGridSortKey (m : Map) (seg : Int × Vec2i × Vec2i) : Int × Int :=
  (USIZE_MAX - ((alGet m.grids_by_coord seg.1).getD []).length, seg.1)

def keyPairLt (a b : Int × Int) : Bool :=
  decide (a.1 < b.1) || (decide (a.1 = b.1) && decide (a.2 < b.2))

/-- `Map::add_grid`.  `none` models a panic inside the merge loop.  The
`db.add_grid` call is external (spec §6.4) and has no effect on the replica. -/
def Map.add_grid (m : Map) (grid : Grid) (neighbours : List GridNeighbour) : Option Map :=
  let segments := neighbours.filterMap (fun v =>
    (alGet m.grids v.id).map (fun g => (g.segment_id, v.offset, g.position)))
  let prepared : Option (Grid × Map) :=
    if segments.isEmpty then some (grid, m)
    else
      let sorted1 := sortByB (fun a b => decide (a.1 < b.1)) segments
      let deduped := dedupByKey (fun s => s.1) sorted1
      match deduped with
      | [] => some (grid, m)
      | (tsid, toff, tpos) :: _ =>
        let grid2 := { grid with segment_id := tsid, position := tpos - toff }
        if deduped.length > 1 then
          let sorted2 := sortByB (fun a b => keyPairLt (addGridSortKey m a) (addGridSortKey m b)) deduped
          (sorted2.tail.foldlM (Map.mergeSegment tsid toff tpos) m).map (fun m2 => (grid2, m2))
        else
          some (grid2, m)
  prepared.map (fun (p : Grid × Map) =>
    let grid3 := p.1
    let m3 := p.2
    let seg_map := (alGet m3.grids_by_coord grid3.segment_id).getD []
    { m3 with
      grids_by_coord := alInsert m3.grids_by_coord grid3.segment_id
        (alInsert seg_map grid3.position grid3.id)
      grids := alInsert m3.grids grid3.id grid3 })

/-- `Map::update_grid`. -/
def Map.update_grid (m : Map) (grid : Grid) : Map :=
  let m1 :=
    match (alGet m.grids grid.id).map (fun v => v.position) with
    | some position =>
      let shift := grid.position - position
      if shift ≠ Vec2i.zero then
        let grids2 := m.grids.map (fun (p : Int × Grid) =>
          if p.2.segment_id = grid.segment_id
          then (p.1, { p.2 with position := p.2.position + shift })
          else p)
        let gbc :=
          match alGet m.grids_by_coord grid.segment_id with
          | some segment =>
            alInsert m.grids_by_coord grid.segment_id
              (segment.map (fun (e : Vec2i × Int) => (e.1 + shift, e.2)))
          | none => m.grids_by_coord
        { m with grids := grids2, grids_by_coord := gbc }
      else m
    | none => m
  { m1 with grids := alInsert m1.grids grid.id grid }

/-! ## Protocol (src/src/bot/protocol.rs) -/

structure Color where
  r : Int
  g : Int
  b : Int
  a : Int
deriving DecidableEq

inductive Value where
  | Nil
  | Int (value : Int)
  | Long (value : Int)
  | Str (value : String)
  | Coord (value : Vec2i)
  | Bytes (value : List Nat)
  | Color (value : Color)
  | Float32 (value : ℚ)
  | Float64 (value : ℚ)
  | FCoord64 (value : Vec2q)
  | List (value : List Value)

mutual

def valueBeq : Value → Value → Bool
  | .Nil, .Nil => true
  | .Int a, .Int b => a == b
  | .Long a, .Long b => a == b
  | .Str a, .Str b => a == b
  | .Coord a, .Coord b => a == b
  | .Bytes a, .Bytes b => a == b
  | .Color a, .Color b => a == b
  | .Float32 a, .Float32 b => a == b
  | .Float64 a, .Float64 b => a == b
  | .FCoord64 a, .FCoord64 b => a == b
  | .List a, .List b => valueListBeq a b
  | _, _ => false

def valueListBeq : List Value → List Value → Bool
  | [], [] => true
  | x :: xs, y :: ys => valueBeq x y && valueListBeq xs ys
  | _, _ => false

end

/- The two lemmas below make the hand-rolled equality test usable as a
`DecidableEq` instance, which later structure derivations depend on; they are
placed here because the instance is part of the data-model definitions. -/

mutual

theorem valueBeq_iff : ∀ a b : Value, valueBeq a b = true ↔ a = b
  | .Nil, b => by cases b <;> simp [valueBeq]
  | .Int a, b => by cases b <;> simp [valueBeq]
  | .Long a, b => by cases b <;> simp [valueBeq]
  | .Str a, b => by cases b <;> simp [valueBeq]
  | .Coord a, b => by cases b <;> simp [valueBeq]
  | .Bytes a, b => by cases b <;> simp [valueBeq]
  | .Color a, b => by cases b <;> simp [valueBeq]
  | .Float32 a, b => by cases b <;> simp [valueBeq]
  | .Float64 a, b => by cases b <;> simp [valueBeq]
  | .FCoord64 a, b => by cases b <;> simp [valueBeq]
  | .List a, .Nil | .List a, .Int _ | .List a, .Long _ | .List a, .Str _
  | .List a, .Coord _ | .List a, .Bytes _ | .List a, .Color _
  | .List a, .Float32 _ | .List a, .Float64 _ | .List a, .FCoord64 _ => by simp [valueBeq]
  | .List a, .List b => by simp [valueBeq, valueListBeq_iff a b]

theorem valueListBeq_iff : ∀ a b : List Value, valueListBeq a b = true ↔ a = b
  | [], [] => by simp [valueListBeq]
  | [], _ :: _ | _ :: _, [] => by simp [valueListBeq]
  | x :: xs, y :: ys => by
    simp [valueListBeq, Bool.and_eq_true, valueBeq_iff x y, valueListBeq_iff xs ys]

end

instance : DecidableEq Value := fun a b => decidable_of_iff _ (valueBeq_iff a b)

structure MapGrid where
  id : Int
  position : Vec2i
  heights : List ℚ
  tiles : List Int
deriving DecidableEq

inductive Event where
  | NewWidget (id : Int) (kind : String) (parent : Int) (pargs : List Value) (cargs : List Value)
  | UIMessage (id : Int) (msg : String) (args : List Value)
  | Destroy (id : Int)
  | AddWidget (id : Int) (parent : Int) (pargs : List Value)
  | MapTile (id : Int) (version : Int) (name : String) (color : Int)
  | MapGridAdd (grid : MapGrid) (neighbours : List GridNeighbour)
  | MapGridUpdate (grid : MapGrid)
  | MapGridRemove (id : Int)
  | GobAdd (id : Int) (position : Vec2q) (angle : ℚ) (name : Option String)
  | GobRemove (id : Int)
  | GobMove (id : Int) (position : Vec2q) (angle : ℚ)
  | ResourceAdd (id : Int) (version : Int) (name : String)
  | WidgetMessage (id : Int) (msg : String) (args : List Value)
  | Close
  | TaskAdd (name : String) (params : List Nat)
  | TaskRemove (id : Int)
  | VisualizationAdd
  | SessionData (value : Option String)
  | GetSessionData
  | Cancel
deriving DecidableEq

structure Update where
  session : Int
  number : Int
  event : Event
deriving DecidableEq

structure SessionInfo where
  id : Int
  tasks : List String
  updates : Nat
  messages : Nat
deriving DecidableEq

/-- `Message` (outbound).  The `Session`/`SessionData` payloads are kept as
their serialized `String` form, which is how they cross the boundary. -/
inductive Message where
  | Ok
  | Error (message : String)
  | Sessions (value : List SessionInfo)
  | WidgetMessage (sender : Int) (kind : String) (arguments : List Value)
  | UIMessage (id : Int) (kind : String) (arguments : List Value)
  | Done (task : String)
  | Session (value : String)
  | SessionData (value : String)
  | GetSessionData
  | LockWidget (value : String)
deriving DecidableEq

/-- `matches!(v, Message::Done { .. })` used by `Session::get_next_message`. -/
def Message.isDone : Message → Bool
  | .Done _ => true
  | _ => false

/-! ## Objects (src/src/bot/objects.rs) -/

structure Object where
  id : Int
  position : Vec2q
  angle : ℚ
  name : Option String
deriving DecidableEq

/-- `Objects`: a `BTreeMap<id, VecDeque<Object>>` where the deque front is the
list head (`push_back` appends, `pop_front` drops the head, `back` is the last
element), plus the name index. -/
structure Objects where
  objects : List (Int × List Object)
  objects_by_name : List (String × Int)
deriving DecidableEq

def Objects.empty : Objects := ⟨[], []⟩

def Objects.add (o : Objects) (obj : Object) : Objects :=
  let byName :=
    match obj.name with
    | some n => alInsert o.objects_by_name n obj.id
    | none => o.objects_by_name
  let dq := (alGet o.objects obj.id).getD []
  { objects := alInsert o.objects obj.id (dq ++ [obj]), objects_by_name := byName }

def Objects.get_by_id (o : Objects) (object_id : Int) : Option Object :=
  (alGet o.objects object_id).bind (fun dq => dq.getLast?)

/-- `Objects::remove`: pops the front of the deque; only when the deque becomes
empty is the id (and its name-index entry) dropped and `true` returned. -/
def Objects.remove (o : Objects) (object_id : Int) : Bool × Objects :=
  match alGet o.objects object_id with
  | none => (false, o)
  | some [] => (false, o)
  | some (front :: rest) =>
    if rest.isEmpty then
      let byName :=
        match front.name with
        | some n => alRemove o.objects_by_name n
        | none => o.objects_by_name
      (true, { objects := alRemove o.objects object_id, objects_by_name := byName })
    else
      (false, { o with objects := alInsert o.objects object_id rest })

def Objects.updateObj (o : Objects) (object_id : Int) (position : Vec2q) (angle : ℚ) :
    Bool × Objects :=
  match alGet o.objects object_id with
  | none => (false, o)
  | some dq =>
    match dq.getLast? with
    | none => (false, o)
    | some back =>
      let dq2 := dq.dropLast ++ [{ back with position := position, angle := angle }]
      (true, { o with objects := alInsert o.objects object_id dq2 })

/-! ## World replica (src/src/bot/world.rs lines 31-179) -/

structure World where
  revision : Nat
  objects : Objects
  map : Map
deriving DecidableEq

def World.empty : World := ⟨0, Objects.empty, Map.empty⟩

/-- `World::update_map`: add or update a grid; a fresh grid id starts its own
segment.  `none` models a panic inside `Map::add_grid`. -/
def World.update_map (w : World) (grid : MapGrid) (neighbours : List GridNeighbour) :
    Option World :=
  match alGet w.map.grids grid.id with
  | some existing =>
    let map_grid : Grid :=
      { id := existing.id, segment_id := existing.segment_id,
        revision := existing.revision + 1, position := grid.position,
        heights := grid.heights, tiles := grid.tiles }
    some { w with map := w.map.update_grid map_grid }
  | none =>
    let map_grid : Grid :=
      { id := grid.id, segment_id := grid.id, revision := 1,
        position := grid.position, heights := grid.heights, tiles := grid.tiles }
    (w.map.add_grid map_grid neighbours).map (fun m => { w with map := m })

/-- `World::apply_update`: the event dispatch; the returned `Bool` is whether
the event was treated as a mutation. -/
def World.apply_update (w : World) (u : Update) : Option (Bool × World) :=
  match u.event with
  | .MapTile id version name color =>
    some (true, { w with map := w.map.set_tile ⟨id, version, name, color⟩ })
  | .MapGridAdd grid neighbours => (w.update_map grid neighbours).map (fun w2 => (true, w2))
  | .MapGridUpdate grid => (w.update_map grid []).map (fun w2 => (true, w2))
  | .GobAdd id position angle name =>
    some (true, { w with objects := w.objects.add ⟨id, position, angle, name⟩ })
  | .GobRemove id =>
    let r := w.objects.remove id
    some (r.1, { w with objects := r.2 })
  | .GobMove id position angle =>
    let r := w.objects.updateObj id position angle
    some (r.1, { w with objects := r.2 })
  | _ => some (false, w)

/-- `World::update`: apply, and increment `revision` exactly when the apply
reported a mutation. -/
def World.update (w : World) (u : Update) : Option (Bool × World) :=
  (w.apply_update u).map (fun r =>
    if r.1 then (true, { r.2 with revision := r.2.revision + 1 }) else (false, r.2))

/-! ## Walk grid (src/src/bot/walk_grid.rs)

The rasterizer is modelled as the list of visited cells when the caller's
predicate always answers `true` (`walk_grid_list`); a visitor that can abort is
recovered by folding over a prefix of that list (`shortcutVisitLoop` below),
which is equivalent because a `false` answer makes the source return `false`
immediately and ignore all later visits.  The loops carry an explicit fuel;
`walkFuel` below is enough for every terminating source run used here. -/

def get_border_coord (value sign : ℚ) : ℚ :=
  if sign > 0 then (⌊value⌋ : ℚ) + 1 else (⌈value⌉ : ℚ) - 1

def get_grid_coord (value sign : ℚ) : ℚ :=
  if sign > 0 then (⌊value⌋ : ℚ) else (⌈value - 1⌉ : ℚ)

def get_border (position sign : Vec2q) : Vec2q :=
  ⟨get_border_coord position.x sign.x, get_border_coord position.y sign.y⟩

def get_grid (position sign : Vec2q) : Vec2q :=
  ⟨get_grid_coord position.x sign.x, get_grid_coord position.y sign.y⟩

/-- `f64::fract() == 0.0` holds exactly for integral values. -/
def isIntegralQ (q : ℚ) : Bool := q.den = 1

/-- The loop of `walk_grid_horizontal` (visits per iteration, then step). -/
def wgHorizAux (grid_y sign end_x : ℚ) (both : Bool) : Nat → ℚ → List Vec2q
  | 0, _ => []
  | Nat.succ fuel, x =>
    let grid_x := get_grid_coord x sign
    let visits := (if both then [(⟨grid_x, grid_y - sign⟩ : Vec2q)] else []) ++ [⟨grid_x, grid_y⟩]
    let x2 := get_border_coord x sign
    let left := end_x - x2
    if left ≠ 0 ∧ signumQ left ≠ sign then visits
    else visits ++ wgHorizAux grid_y sign end_x both fuel x2

/-- The loop of `walk_grid_vertical`. -/
def wgVertAux (grid_x sign end_y : ℚ) (both : Bool) : Nat → ℚ → List Vec2q
  | 0, _ => []
  | Nat.succ fuel, y =>
    let grid_y := get_grid_coord y sign
    let visits := (if both then [(⟨grid_x - sign, grid_y⟩ : Vec2q)] else []) ++ [⟨grid_x, grid_y⟩]
    let y2 := get_border_coord y sign
    let left := end_y - y2
    if left ≠ 0 ∧ signumQ left ≠ sign then visits
    else visits ++ wgVertAux grid_x sign end_y both fuel y2

/-- The loop of `walk_grid_diagonal`.  The two norms are compared through the
caller-supplied `sqrt`, exactly as the source compares `by_x.norm()` with
`by_y.norm()`. -/
def wgDiagAux (sqrt : ℚ → ℚ) (toV sign endP : Vec2q) : Nat → Vec2q → List Vec2q
  | 0, _ => []
  | Nat.succ fuel, position =>
    let border := get_border position sign
    let to_border := border - position
    let by_x := toV.smul (to_border.x / toV.x)
    let by_y := toV.smul (to_border.y / toV.y)
    let by_x_norm := normQ sqrt by_x
    let by_y_norm := normQ sqrt by_y
    let step : Vec2q × Bool :=
      if by_x_norm < by_y_norm then (⟨border.x, position.y + by_x.y⟩, false)
      else if by_x_norm > by_y_norm then (⟨position.x + by_y.x, border.y⟩, false)
      else (border, true)
    let next_position := step.1
    let both := step.2
    if (endP - next_position).signumV ≠ sign then []
    else
      (if both then [get_grid ⟨border.x, position.y⟩ sign, get_grid ⟨position.x, border.y⟩ sign]
       else [])
        ++ [get_grid next_position sign]
        ++ wgDiagAux sqrt toV sign endP fuel next_position

/-- `walk_grid`: the full visit sequence for an always-true visitor. -/
def walk_grid_list (sqrt : ℚ → ℚ) (fuel : Nat) (begin_ end_ : Vec2q) : List Vec2q :=
  let toV := end_ - begin_
  if toV.x ≠ 0 ∧ toV.y ≠ 0 then
    let sign := toV.signumV
    get_grid begin_ sign :: wgDiagAux sqrt toV sign end_ fuel begin_
  else if toV.y = 0 then
    wgHorizAux (get_grid_coord begin_.y (signumQ toV.x)) (signumQ toV.x) end_.x
      (isIntegralQ begin_.y) fuel begin_.x
  else if toV.x = 0 then
    wgVertAux (get_grid_coord begin_.x (signumQ toV.y)) (signumQ toV.y) end_.y
      (isIntegralQ begin_.x) fuel begin_.y
  else
    [⟨(begin_.floorV.x : ℚ), (begin_.floorV.y : ℚ)⟩]

/-- A fuel that dominates the number of loop iterations of any terminating
source run between the two points. -/
def walkFuel (toV : Vec2q) : Nat := ⌈|toV.x|⌉.toNat + ⌈|toV.y|⌉.toNat + 4

/-! ## PlayerWorld view and pathfinding (src/src/bot/world.rs lines 200-567) -/

/-- The slice of `PlayerWorld` that the pathfinder reads (src lines 182-198,
273-278): the map plus the precomputed player segment and grid offset. -/
structure PlayerWorld where
  map : Map
  player_segment_id : Int
  player_grid_offset : Vec2i
deriving DecidableEq

/-- `PlayerWorld::get_tile`. -/
def PlayerWorld.get_tile (pw : PlayerWorld) (tile_pos : Vec2i) : Option Int :=
  pw.map.get_tile pw.player_segment_id
    (tile_pos + grid_pos_to_tile_pos pw.player_grid_offset)

/-- `BTreeMapTileWeights`: the weights map; `TileSet::contains` for it is
`get(tile).is_some()`. -/
abbrev TileWeights : Type := List (Int × ℚ)

def weightsGet (w : TileWeights) (tile : Int) : Option ℚ := alGet w tile

/-- `get_weight` closure in `find_reversed_tiles_path`. -/
def get_weight (pw : PlayerWorld) (weights : TileWeights) (tile_pos : Vec2i) : Option ℚ :=
  (pw.get_tile tile_pos).bind (fun tile => weightsGet weights tile)

/-- `is_reachable` closure: unknown tiles are reachable, known tiles need a
weight. -/
def is_reachable (pw : PlayerWorld) (weights : TileWeights) (tile_pos : Vec2i) : Bool :=
  match pw.get_tile tile_pos with
  | some tile => (weightsGet weights tile).isSome
  | none => true

/-- `is_allowed` closure of `is_valid_shortcut_by_rel_pos` (same predicate,
with `TileSet::contains` instantiated to the weights map). -/
def is_allowed_at (pw : PlayerWorld) (allowed : TileWeights) (tile_pos : Vec2i) : Bool :=
  match pw.get_tile tile_pos with
  | some tile => (weightsGet allowed tile).isSome
  | none => true

def is_valid_shortcut_by_x_aux (pw : PlayerWorld) (allowed : TileWeights)
    (src : Vec2i) (dstY shift : Int) (maxLen : ℚ) : Nat → Int → Bool
  | 0, y => decide (y = dstY)
  | Nat.succ fuel, y =>
    if y = dstY then true
    else if ((src.y - y).natAbs : ℚ) > maxLen then false
    else
      match pw.get_tile (src.withY y) with
      | some tile =>
        if (weightsGet allowed tile).isSome
        then is_valid_shortcut_by_x_aux pw allowed src dstY shift maxLen fuel (y + shift)
        else false
      | none => false

/-- `PlayerWorld::is_valid_shortcut_by_x` (walks the y axis at fixed x). -/
def is_valid_shortcut_by_x (pw : PlayerWorld) (allowed : TileWeights)
    (src dst : Vec2i) (maxLen : ℚ) : Bool :=
  let shift : Int := if src.y < dst.y then 1 else -1
  is_valid_shortcut_by_x_aux pw allowed src dst.y shift maxLen (dst.y - src.y).natAbs src.y

def is_valid_shortcut_by_y_aux (pw : PlayerWorld) (allowed : TileWeights)
    (src : Vec2i) (dstX shift : Int) (maxLen : ℚ) : Nat → Int → Bool
  | 0, x => decide (x = dstX)
  | Nat.succ fuel, x =>
    if x = dstX then true
    else if ((src.x - x).natAbs : ℚ) > maxLen then false
    else
      match pw.get_tile (src.withX x) with
      | some tile =>
        if (weightsGet allowed tile).isSome
        then is_valid_shortcut_by_y_aux pw allowed src dstX shift maxLen fuel (x + shift)
        else false
      | none => false

/-- `PlayerWorld::is_valid_shortcut_by_y` (walks the x axis at fixed y). -/
def is_valid_shortcut_by_y (pw : PlayerWorld) (allowed : TileWeights)
    (src dst : Vec2i) (maxLen : ℚ) : Bool :=
  let shift : Int := if src.x < dst.x then 1 else -1
  is_valid_shortcut_by_y_aux pw allowed src dst.x shift maxLen (dst.x - src.x).natAbs src.x

/-- The visitor of `is_valid_shortcut_by_rel_pos`, folded over the visit
sequence with its `prev_tile_pos` state. -/
def shortcutVisitLoop (sqrt : ℚ → ℚ) (pw : PlayerWorld) (allowed : TileWeights)
    (src : Vec2q) (maxLen : ℚ) : Option Vec2i → List Vec2q → Bool
  | _, [] => true
  | prev, position :: rest =>
    if distQ sqrt src position > maxLen then false
    else
      let tile_pos := position.floorV
      if is_allowed_at pw allowed tile_pos = false then false
      else
        match prev with
        | some p =>
          let shift := tile_pos - p
          if (shift.x ≠ 0 ∧ is_allowed_at pw allowed (p + shift.withX 0) = false)
             ∨ (shift.y ≠ 0 ∧ is_allowed_at pw allowed (p + shift.withY 0) = false) then false
          else shortcutVisitLoop sqrt pw allowed src maxLen (some tile_pos) rest
        | none => shortcutVisitLoop sqrt pw allowed src maxLen (some tile_pos) rest

/-- `PlayerWorld::is_valid_shortcut_by_rel_pos`. -/
def is_valid_shortcut_by_rel_pos (sqrt : ℚ → ℚ) (pw : PlayerWorld) (allowed : TileWeights)
    (src dst : Vec2q) (maxLen : ℚ) : Bool :=
  shortcutVisitLoop sqrt pw allowed src maxLen none
    (walk_grid_list sqrt (walkFuel (dst - src)) src dst)

/-- `PlayerWorld::is_valid_shortcut`. -/
def is_valid_shortcut (sqrt : ℚ → ℚ) (pw : PlayerWorld) (allowed : TileWeights)
    (src dst : Vec2i) (maxLen : ℚ) : Bool :=
  if src.x = dst.x then is_valid_shortcut_by_x pw allowed src dst maxLen
  else if src.y = dst.y then is_valid_shortcut_by_y pw allowed src dst maxLen
  else is_valid_shortcut_by_rel_pos sqrt pw allowed src.center dst.center maxLen

/-! ### Weighted A* (src/src/bot/world.rs lines 320-427) -/

/-- The exact `f64` value of `std::f64::consts::SQRT_2`. -/
def SQRT2 : ℚ := 6369051672525773 / 4503599627370496

/-- The exact value of `std::f64::MAX`, that is `2 ^ 1024 - 2 ^ 971`, written
as a numeral so that it evaluates without unfolding a 1024-deep power chain. -/
def F64_MAX : ℚ := 179769313486231570814527423731704356798070567525844996598917476803157260780028538760589558632766878171540458953514382464234321326889464182768467546703537516986049910576551282076245490090389328944075868508455133942304583236903222948165808559332123348274797826204144723168738177180919299881250404026184124858368

/-- `f64::round` rounds half away from zero. -/
def rustRound (q : ℚ) : Int := if q < 0 then -round (-q) else round q

def I32_MIN : Int := -(2 ^ 31)

def I32_MAX : Int := 2 ^ 31 - 1

/-- `as_score` from src/src/bot/math.rs (`f64 as i32` saturates). -/
def as_score (v : ℚ) : Int := max I32_MIN (min I32_MAX (rustRound (v * 100000)))

/-- The `EDGES` table. -/
def EDGES : List (Vec2i × ℚ) :=
  [(⟨-1, -1⟩, SQRT2), (⟨-1, 0⟩, 1), (⟨-1, 1⟩, SQRT2), (⟨0, -1⟩, 1),
   (⟨0, 1⟩, 1), (⟨1, -1⟩, SQRT2), (⟨1, 0⟩, 1), (⟨1, 1⟩, SQRT2)]

/-- The search state: the `BinaryHeap<(i32, Vec2i)>` is a list whose pop takes
the maximum in the lexicographic `(score, pos)` order (which is total, so the
popped element is uniquely determined, as for the Rust heap). -/
structure AState where
  ordered : List (Int × Vec2i)
  costs : List (Vec2i × ℚ)
  backtrack : List (Vec2i × Vec2i)
  open_set : List Vec2i
deriving DecidableEq

def scoreLt (a b : Int × Vec2i) : Bool :=
  decide (a.1 < b.1)
    || (decide (a.1 = b.1)
        && (decide (a.2.x < b.2.x) || (decide (a.2.x = b.2.x) && decide (a.2.y < b.2.y))))

/-- `BinaryHeap::pop`: extract the maximum element. -/
def popMax : List (Int × Vec2i) → Option ((Int × Vec2i) × List (Int × Vec2i))
  | [] => none
  | e :: rest =>
    match popMax rest with
    | none => some (e, [])
    | some (m, others) => if scoreLt e m then some (m, e :: others) else some (e, others)

/-- One edge of the neighbour expansion (src lines 381-412).  `none` models the
`costs[&tile_pos]` index panic. -/
def expand_edge (sqrt : ℚ → ℚ) (pw : PlayerWorld) (weights : TileWeights)
    (dst tile_pos : Vec2i) (weight : ℚ) (st : AState) (e : Vec2i × ℚ) : Option AState :=
  let shift := e.1
  let distance := e.2
  let next_tile_pos := tile_pos + shift
  match get_weight pw weights next_tile_pos with
  | none => some st
  | some next_weight =>
    if distance ≠ 1
       ∧ (is_reachable pw weights (tile_pos + shift.withX 0) = false
          ∨ is_reachable pw weights (tile_pos + shift.withY 0) = false) then some st
    else
      let right := next_tile_pos + Vec2i.onlyX 1
      let left := next_tile_pos - Vec2i.onlyX 1
      let top := next_tile_pos + Vec2i.onlyY 1
      let bottom := next_tile_pos - Vec2i.onlyY 1
      if (right ≠ tile_pos ∧ is_reachable pw weights right = false)
         ∨ (left ≠ tile_pos ∧ is_reachable pw weights left = false)
         ∨ (top ≠ tile_pos ∧ is_reachable pw weights top = false)
         ∨ (bottom ≠ tile_pos ∧ is_reachable pw weights bottom = false) then some st
      else
        match alGet st.costs tile_pos with
        | none => none
        | some cur_cost =>
          let next_cost := cur_cost + distance * (weight + next_weight) / 2
          let other_cost := (alGet st.costs next_tile_pos).getD F64_MAX
          if next_cost < other_cost then
            let st1 := { st with backtrack := alInsert st.backtrack next_tile_pos tile_pos,
                                 costs := alInsert st.costs next_tile_pos next_cost }
            if st1.open_set.any (fun p => decide (p = next_tile_pos)) then some st1
            else
              let next_score := next_cost + distQ sqrt next_tile_pos.center dst.center
              some { st1 with open_set := next_tile_pos :: st1.open_set,
                              ordered := (-as_score next_score, next_tile_pos) :: st1.ordered }
          else some st

/-- `reconstruct_path`'s loop; `none` models the `backtrack[&current]` index
panic and (fuel exhaustion) a cyclic chain, on which the source diverges. -/
def reconstructAux (src : Vec2i) (bt : List (Vec2i × Vec2i)) : Nat → Vec2i → Option (List Vec2i)
  | 0, _ => none
  | Nat.succ fuel, current =>
    match alGet bt current with
    | none => none
    | some prev =>
      if prev = src then some []
      else (reconstructAux src bt fuel prev).map (fun l => prev :: l)

/-- `reconstruct_path`. -/
def reconstruct_path (src dst : Vec2i) (bt : List (Vec2i × Vec2i)) : Option (List Vec2i) :=
  (reconstructAux src bt (bt.length + 1) dst).map (fun l => dst :: l)

/-- The search loop of `find_reversed_tiles_path`.  The fuel plays the role of
`max_iterations - iterations`; `some []` covers the heap-exhausted, cancelled
and iteration-limit exits, all of which return an empty path. -/
def a_star_loop (sqrt : ℚ → ℚ) (pw : PlayerWorld) (weights : TileWeights)
    (src dst : Vec2i) (cancel : Bool) : Nat → AState → Option (List Vec2i)
  | fuel, st =>
    match popMax st.ordered with
    | none => some []
    | some (se, rest) =>
      let tile_pos := se.2
      if tile_pos = dst then reconstruct_path src dst st.backtrack
      else if cancel then some []
      else
        match fuel with
        | 0 => some []
        | Nat.succ fuel2 =>
          let st1 := { st with ordered := rest,
                               open_set := st.open_set.filter (fun p => decide (p ≠ tile_pos)) }
          match pw.get_tile tile_pos with
          | some tile =>
            match weightsGet weights tile with
            | some weight =>
              match EDGES.foldlM (expand_edge sqrt pw weights dst tile_pos weight) st1 with
              | none => none
              | some st2 => a_star_loop sqrt pw weights src dst cancel fuel2 st2
            | none => a_star_loop sqrt pw weights src dst cancel fuel2 st1
          | none => a_star_loop sqrt pw weights src dst cancel fuel2 st1

/-- `PlayerWorld::find_reversed_tiles_path` (visualization transitions and
logging omitted). -/
def find_reversed_tiles_path (sqrt : ℚ → ℚ) (pw : PlayerWorld) (weights : TileWeights)
    (src dst : Vec2i) (max_iterations : Nat) (cancel : Bool) : Option (List Vec2i) :=
  let st : AState :=
    { ordered := [(as_score (distQ sqrt src.center dst.center), src)],
      costs := [(src, 0)], backtrack := [], open_set := [] }
  if is_reachable pw weights dst = false then some []
  else a_star_loop sqrt pw weights src dst cancel max_iterations st

/-- The inner loop of `shorten_reversed_tiles_path`: `last`/`current` cursor
over the reversed path `r`; the fuel is an upper bound on the remaining
iterations (`last` strictly decreases each round). -/
def shortenLoop (sqrt : ℚ → ℚ) (pw : PlayerWorld) (allowed : TileWeights) (maxLen : ℚ)
    (r : List Vec2i) : Nat → Nat → Vec2i → List Vec2i
  | 0, _, _ => []
  | Nat.succ fuel, last, current =>
    if last = 0 then []
    else
      let index :=
        ((List.range last).find? (fun i =>
          is_valid_shortcut sqrt pw allowed current (r.getD i Vec2i.zero) maxLen)).getD last
      if index = last then
        r.getD last Vec2i.zero :: shortenLoop sqrt pw allowed maxLen r fuel (last - 1) current
      else
        r.getD index Vec2i.zero ::
          shortenLoop sqrt pw allowed maxLen r fuel index (r.getD index Vec2i.zero)

/-- `PlayerWorld::shorten_reversed_tiles_path`. -/
def shorten_reversed_tiles_path (sqrt : ℚ → ℚ) (pw : PlayerWorld) (allowed : TileWeights)
    (maxLen : ℚ) (r : List Vec2i) : List Vec2i :=
  if r.length < 2 then r
  else shortenLoop sqrt pw allowed maxLen r r.length (r.length - 1) (r.getD (r.length - 1) Vec2i.zero)

/-- `PlayerWorld::find_path` (scene `Transitions` omitted; `cancel` is the
value of the atomic flag, constant in this sequential model). -/
def find_path (sqrt : ℚ → ℚ) (pw : PlayerWorld) (src dst : Vec2i) (weights : TileWeights)
    (max_shortcut_length : ℚ) (max_iterations : Nat) (cancel : Bool) : Option (List Vec2i) :=
  if src = dst then some [dst]
  else
    (find_reversed_tiles_path sqrt pw weights src dst max_iterations cancel).map
      (fun path => shorten_reversed_tiles_path sqrt pw weights max_shortcut_length path)

/-! ## Clusterization (src/src/bot/clusterization.rs) -/

/-- Two's-complement wrap-around of `i32` arithmetic (Rust release build). -/
def wrap32 (n : Int) : Int := (n + 2 ^ 31) % 2 ^ 32 - 2 ^ 31

/-- `is_adjacent`: a disjunction of the four coordinate tests, exactly as in
the source. -/
def is_adjacent (lhs rhs : Vec2i) : Bool :=
  decide (wrap32 (lhs.x + 1) = rhs.x) || decide (lhs.x = wrap32 (rhs.x + 1))
    || decide (wrap32 (lhs.y + 1) = rhs.y) || decide (lhs.y = wrap32 (rhs.y + 1))

/-- The inner `for cluster in clusters` loop of `make_adjacent_tiles_clusters`:
append the point to the first cluster holding an adjacent point, reporting
failure with `none`. -/
def addToFirstAdjacent (tile_pos : Vec2i) : List (List Vec2i) → Option (List (List Vec2i))
  | [] => none
  | cluster :: rest =>
    if cluster.any (fun v => is_adjacent v tile_pos) then some ((cluster ++ [tile_pos]) :: rest)
    else (addToFirstAdjacent tile_pos rest).map (fun r => cluster :: r)

/-- `make_adjacent_tiles_clusters`. -/
def make_adjacent_tiles_clusters (tile_poses : List Vec2i) : List (List Vec2i) :=
  tile_poses.foldl
    (fun clusters tile_pos => (addToFirstAdjacent tile_pos clusters).getD (clusters ++ [[tile_pos]]))
    []

/-! ## Session (src/src/bot/session.rs)

The `dyn Task` objects' internal state is outside this model; a task slot
keeps its `id`, `name` and `params` (which no session operation mutates).  The
player projection (src/src/bot/player.rs, ~1000 lines not needed by any claim)
is abstracted behind `PlayerIface`: its `game_ui_id`, the
`world.for_player(player).map(|w| w.game_ui_id())` view, and its `update`; all
session theorems quantify over these. -/

structure TaskWithParams where
  id : Int
  name : String
  params : List Nat
deriving DecidableEq

structure PlayerIface (P : Type) where
  game_ui_id : P → Option Int
  for_player_ui : World → P → Option Int
  update : P → World → Update → Bool × P

structure Session (P : Type) where
  id : Int
  last_update : Int
  world : World
  player : P
  task_id_counter : Int
  tasks : List TaskWithParams
  messages : List Message
deriving DecidableEq

/-- Success of `make_task` (src lines 257-271): every registered name succeeds
except `NewCharacter`, which succeeds iff its params parse; `parseNC` stands
for the serde parse of `NewCharacterParams`. -/
def make_task_ok (parseNC : List Nat → Bool) (name : String) (params : List Nat) : Bool :=
  match name with
  | "Explorer" => true
  | "ExpWndCloser" => true
  | "NewCharacter" => parseNC params
  | "PathFinder" => true
  | "Drinker" => true
  | _ => false

/-- `Session::add_task`.  The id counter is bumped first; on `make_task`
failure nothing is pushed (the `?` aborts the struct literal); the
`add-task` UI message is enqueued only when `player.game_ui_id()` is known. -/
def Session.add_task {P : Type} (iface : PlayerIface P) (parseNC : List Nat → Bool)
    (s : Session P) (name : String) (params : List Nat) : Session P :=
  let counter := s.task_id_counter + 1
  let s1 := { s with task_id_counter := counter }
  if make_task_ok parseNC name params then
    let s2 := { s1 with tasks := s1.tasks ++ [⟨counter, name, params⟩] }
    match iface.game_ui_id s2.player with
    | some gid =>
      { s2 with messages := s2.messages ++
          [Message.UIMessage gid "add-task"
            [Value.Long counter, Value.Str name, Value.Bytes params]] }
    | none => s2
  else s1

/-- `Session::remove_task`. -/
def Session.remove_task {P : Type} (iface : PlayerIface P) (s : Session P) (id : Int) :
    Session P :=
  let removed := s.tasks.any (fun t => decide (t.id = id))
  let s1 := { s with tasks := s.tasks.filter (fun t => decide (t.id ≠ id)) }
  if removed then
    match iface.for_player_ui s1.world s1.player with
    | some gid =>
      { s1 with messages := s1.messages ++ [Message.UIMessage gid "remove-task" [Value.Long id]] }
    | none => s1
  else s1

/-- `Session::update`.  A stale update returns `false` before touching any
state.  The per-task `update` fan-out only mutates task-internal state, which
is outside the model; the player is updated against the pre-event world, then
the world is updated.  `none` models a panic inside `World::update`. -/
def Session.update {P : Type} (iface : PlayerIface P) (parseNC : List Nat → Bool)
    (s : Session P) (u : Update) : Option (Bool × Session P) :=
  if u.number ≤ s.last_update then some (false, s)
  else
    let s1 := { s with last_update := u.number }
    let s2 :=
      match u.event with
      | .TaskAdd name params => Session.add_task iface parseNC s1 name params
      | .TaskRemove id => Session.remove_task iface s1 id
      | _ => s1
    let pr := iface.update s2.player s2.world u
    let s3 := { s2 with player := pr.2 }
    (s3.world.update u).map (fun wr => (pr.1 || wr.1, { s3 with world := wr.2 }))

/-- The iteration of `Session::get_next_message` over the task list, with the
running `message` accumulator; `taskNext` is what each task's
`get_next_message(world, scene)` returns this tick. -/
def next_message_loop (taskNext : TaskWithParams → Option Message) :
    List TaskWithParams → Option Message → Option Message
  | [], acc => acc
  | t :: rest, acc =>
    match taskNext t with
    | some v => if v.isDone then next_message_loop taskNext rest (some v) else some v
    | none => next_message_loop taskNext rest acc

/-- `Session::get_next_message`. -/
def Session.get_next_message {P : Type} (iface : PlayerIface P)
    (taskNext : TaskWithParams → Option Message) (s : Session P) : Option Message :=
  match iface.for_player_ui s.world s.player with
  | some _ => next_message_loop taskNext s.tasks none
  | none => none

/-! ## Per-session processing loop, message emission (src/src/bot/process.rs
lines 58-75) -/

/-- The conditional append applied to every candidate outbound message. -/
def push_deduped (outbound : List Message) (m : Message) : List Message :=
  if outbound.isEmpty ∨ outbound.getLast? ≠ some m then outbound ++ [m] else outbound

/-- The `while let Some(message) = get_existing_message()` drain. -/
def drain_existing : List Message → List Message → List Message
  | outbound, [] => outbound
  | outbound, m :: rest => drain_existing (push_deduped outbound m) rest

/-- The message phase of one `process_session` tick: drain the session's
pending messages, then the optional task-produced message, each through the
conditional append. -/
def process_session_messages (outbound pending : List Message) (next : Option Message) :
    List Message :=
  let outbound2 := drain_existing outbound pending
  match next with
  | some m => push_deduped outbound2 m
  | none => outbound2

/-! ## Claim-language predicates (spec side) -/

/-- 8-connected adjacency of two tiles, as the claims use it. -/
def Adjacent8 (a b : Vec2i) : Prop :=
  a ≠ b ∧ |a.x - b.x| ≤ 1 ∧ |a.y - b.y| ≤ 1

instance (a b : Vec2i) : Decidable (Adjacent8 a b) :=
  inferInstanceAs (Decidable (a ≠ b ∧ |a.x - b.x| ≤ 1 ∧ |a.y - b.y| ≤ 1))

/-- The claim's reachability: the tile id is absent from the map or present in
the weights. -/
def ReachableTile (pw : PlayerWorld) (weights : TileWeights) (q : Vec2i) : Prop :=
  pw.get_tile q = none ∨ ∃ t, pw.get_tile q = some t ∧ (weightsGet weights t).isSome

/-- Manhattan distance, as C7 uses it. -/
def manhattanDist (a b : Vec2i) : Int := |a.x - b.x| + |a.y - b.y|

/-- Chebyshev-style bound of C8 (amended): each axis moves by at most one. -/
def ChebLe1 (u v : Vec2q) : Prop := |u.x - v.x| ≤ 1 ∧ |u.y - v.y| ≤ 1

instance (u v : Vec2q) : Decidable (ChebLe1 u v) :=
  inferInstanceAs (Decidable (|u.x - v.x| ≤ 1 ∧ |u.y - v.y| ≤ 1))

/-- C8's original per-step property: ±1 on exactly one axis. -/
def OneAxisStep (u v : Vec2q) : Prop :=
  (|u.x - v.x| = 1 ∧ u.y = v.y) ∨ (u.x = v.x ∧ |u.y - v.y| = 1)

instance (u v : Vec2q) : Decidable (OneAxisStep u v) :=
  inferInstanceAs (Decidable ((|u.x - v.x| = 1 ∧ u.y = v.y) ∨ (u.x = v.x ∧ |u.y - v.y| = 1)))

/-- Spec-side emission rule of C10, written from the claim's words: a candidate
is appended unless it equals the most recently queued message. -/
def emit_spec : Option Message → List Message → List Message
  | _, [] => []
  | lastM, c :: cs =>
    if lastM = some c then emit_spec lastM cs
    else c :: emit_spec (some c) cs

/-- The shifts of the eight expansion edges. -/
def edgeShifts : List Vec2i := EDGES.map Prod.fst

/-- A tile that is present and carries a weight (every node the search ever
records in `backtrack` satisfies this). -/
def WeightedAt (pw : PlayerWorld) (weights : TileWeights) (q : Vec2i) : Prop :=
  (get_weight pw weights q).isSome

/-- Invariant of the search's `backtrack` map: every recorded edge joins two
weighted tiles that are 8-adjacent. -/
def BtInv (pw : PlayerWorld) (weights : TileWeights) (bt : List (Vec2i × Vec2i)) : Prop :=
  ∀ k v, alGet bt k = some v →
    Adjacent8 k v ∧ WeightedAt pw weights k ∧ WeightedAt pw weights v

/-- The relation connecting consecutive entries that `shorten` emits: equal
points, a validated shortcut, or a reversed consecutive pair of the A* path
`r`. -/
def StepOk (sqrt : ℚ → ℚ) (pw : PlayerWorld) (allowed : TileWeights) (maxLen : ℚ)
    (r : List Vec2i) (a b : Vec2i) : Prop :=
  a = b ∨ is_valid_shortcut sqrt pw allowed a b maxLen = true ∨
    ∃ j, j + 1 < r.length ∧ a = r.getD (j + 1) Vec2i.zero ∧ b = r.getD j Vec2i.zero

/-- `[r[last], r[last-1], …, r[1]]`: what the shorten loop emits once no
further shortcut from the current point exists. -/
def descSuffix (r : List Vec2i) (last : Nat) : List Vec2i :=
  (List.range last).reverse.map (fun i => r.getD (i + 1) Vec2i.zero)

/-! ## Concrete fixtures used by counterexamples and witnesses -/

/-- The identity as a stand-in `sqrt`; every comparison the fixture runs make
through it coincides with the one `f64::sqrt` would produce (the compared
values are on the same side of the thresholds). -/
def sqrtId : ℚ → ℚ := fun q => q

def mkBareGrid (i seg : Int) (pos : Vec2i) : Grid :=
  { id := i, revision := 1, segment_id := seg, position := pos, heights := [], tiles := [] }

/-- C1: two singleton-free segments built through `add_grid` itself: segment 1
holds grid 1; segment 2 holds grids 2 and 3. -/
def c1MapSteps : Option Map :=
  (Map.empty.add_grid (mkBareGrid 1 1 ⟨0, 0⟩) []).bind (fun m1 =>
    (m1.add_grid (mkBareGrid 2 2 ⟨0, 0⟩) []).bind (fun m2 =>
      m2.add_grid (mkBareGrid 3 3 ⟨0, 0⟩) [⟨2, ⟨1, 0⟩⟩]))

def c1Map : Map :=
  { tiles := [], tiles_by_name := [],
    grids := [(1, mkBareGrid 1 1 ⟨0, 0⟩), (2, mkBareGrid 2 2 ⟨0, 0⟩),
              (3, mkBareGrid 3 2 ⟨-1, 0⟩)],
    grids_by_coord := [(1, [(⟨0, 0⟩, 1)]), (2, [(⟨0, 0⟩, 2), (⟨-1, 0⟩, 3)])] }

/-- C1: the grid whose neighbours lie in segment 1 (one grid) and segment 2
(two grids); built as `World::update_map` would build it. -/
def c1NewGrid : Grid := mkBareGrid 4 4 ⟨0, 0⟩

def c1Neighbours : List GridNeighbour := [⟨1, ⟨0, 1⟩⟩, ⟨2, ⟨0, -1⟩⟩]

/-- C2 fixture map: one grid at the origin of segment 1.  Rows `y = 0` and
`y = 1` have tile 1 on `x ∈ {0,1,2,3}`, everything else tile 2; only tile 1
carries a weight, so the search is confined to the bottom-left corridor.  The
grid's tile vector covers tile indices up to `204` (a `MapGridAdd` event may
carry a vector of any length; the runs below never index beyond it, so the
source behaves identically on this input). -/
def c2Tiles : List Int :=
  List.replicate 4 1 ++ List.replicate 96 2 ++ List.replicate 4 1 ++ List.replicate 96 2
    ++ List.replicate 5 2

def c2Grid : Grid := { id := 1, revision := 1, segment_id := 1, position := ⟨0, 0⟩,
                       heights := [], tiles := c2Tiles }

def c2Map : Map :=
  { tiles := [], tiles_by_name := [], grids := [(1, c2Grid)],
    grids_by_coord := [(1, [(⟨0, 0⟩, 1)])] }

def c2PW : PlayerWorld := { map := c2Map, player_segment_id := 1, player_grid_offset := ⟨0, 0⟩ }

def c2Weights : TileWeights := [(1, 1)]

/-- C5 fixture tiles: same name, the later one with the smaller version. -/
def c5TileA : Tile := { id := 1, version := 2, name := "snow", color := 0 }

def c5TileB : Tile := { id := 2, version := 1, name := "snow", color := 0 }

/-- C6 fixture: the world after two `GobAdd` events for object 1. -/
def c6Obj1 : Object := { id := 1, position := ⟨0, 0⟩, angle := 0, name := none }

def c6Obj2 : Object := { id := 1, position := ⟨1, 1⟩, angle := 0, name := none }

def c6Steps : Option World :=
  (World.empty.update ⟨1, 1, .GobAdd 1 ⟨0, 0⟩ 0 none⟩).bind (fun r1 =>
    (r1.2.update ⟨1, 2, .GobAdd 1 ⟨1, 1⟩ 0 none⟩).map (fun r2 => r2.2))

def c6World : World :=
  { revision := 2, objects := ⟨[(1, [c6Obj1, c6Obj2])], []⟩, map := Map.empty }

def c6WorldAfter : World :=
  { revision := 2, objects := ⟨[(1, [c6Obj2])], []⟩, map := Map.empty }

/-- C4/C9 fixture: the trivial player interface over `Option Int` (the player
is its `game_ui_id`). -/
def optIface : PlayerIface (Option Int) :=
  { game_ui_id := fun p => p, for_player_ui := fun _ p => p,
    update := fun p _ _ => (false, p) }

def c4Session : Session (Option Int) :=
  { id := 1, last_update := 5, world := World.empty, player := some 6,
    task_id_counter := 0, tasks := [], messages := [] }

def c9SessionNoUi : Session (Option Int) :=
  { id := 1, last_update := 0, world := World.empty, player := none,
    task_id_counter := 0, tasks := [], messages := [] }

def c9SessionUi : Session (Option Int) :=
  { id := 1, last_update := 0, world := World.empty, player := some 6,
    task_id_counter := 0, tasks := [], messages := [] }

def c9AfterNoUi : Session (Option Int) :=
  { id := 1, last_update := 1, world := World.empty, player := none,
    task_id_counter := 1, tasks := [⟨1, "PathFinder", []⟩], messages := [] }

def c9AfterUi : Session (Option Int) :=
  { id := 1, last_update := 1, world := World.empty, player := some 6,
    task_id_counter := 1, tasks := [⟨1, "PathFinder", []⟩],
    messages := [Message.UIMessage 6 "add-task"
      [Value.Long 1, Value.Str "PathFinder", Value.Bytes []]] }

def c6WitnessWorld : World :=
  { revision := 1, objects := ⟨[(1, [c6Obj1])], []⟩, map := Map.empty }

/-- C3 fixture: a per-task tick result — the first task idles, the second
reports `Done`, the third emits. -/
def c3TaskNext : TaskWithParams → Option Message := fun t =>
  if t.name = "Closer" then some (Message.Done "Closer")
  else if t.name = "Clicker" then some Message.Ok
  else none

def c3Session : Session (Option Int) :=
  { id := 1, last_update := 0, world := World.empty, player := some 6,
    task_id_counter := 3,
    tasks := [⟨1, "Idle", []⟩, ⟨2, "Closer", []⟩, ⟨3, "Clicker", []⟩], messages := [] }

/-! ## Helper lemmas -/

/- Batteries marks the rational-number operations irreducible, which blocks
`decide` from evaluating the embedded `f64` arithmetic at concrete inputs;
make them reducible again for the concrete evaluations below. -/
attribute [local semireducible] Rat.add Rat.sub Rat.mul Rat.inv Rat.ofScientific

theorem alGet_alInsert {K V : Type} [DecidableEq K] (l : List (K × V)) (k k2 : K) (v : V) :
    alGet (alInsert l k v) k2 = if k = k2 then some v else alGet l k2 := by
  induction l with
  | nil => simp [alInsert, alGet]
  | cons p rest ih =>
    show alGet (if p.1 = k then (k, v) :: rest else p :: alInsert rest k v) k2 = _
    by_cases hp : p.1 = k
    · rw [if_pos hp]
      show (if k = k2 then some v else alGet rest k2) = _
      by_cases h : k = k2
      · rw [if_pos h, if_pos h]
      · have hp2 : ¬ p.1 = k2 := fun hc => h (hp.symm.trans hc)
        rw [if_neg h, if_neg h]
        show alGet rest k2 = (if p.1 = k2 then some p.2 else alGet rest k2)
        rw [if_neg hp2]
    · rw [if_neg hp]
      show (if p.1 = k2 then some p.2 else alGet (alInsert rest k v) k2) = _
      by_cases h2 : p.1 = k2
      · have hk : ¬ k = k2 := fun hc => hp (hc ▸ h2)
        rw [if_pos h2, if_neg hk]
        show some p.2 = (if p.1 = k2 then some p.2 else alGet rest k2)
        rw [if_pos h2]
      · rw [if_neg h2, ih]
        by_cases h : k = k2
        · rw [if_pos h, if_pos h]
        · rw [if_neg h, if_neg h]
          show alGet rest k2 = (if p.1 = k2 then some p.2 else alGet rest k2)
          rw [if_neg h2]

/-! ## C1 -/

/-- C1: code bug in `Map::add_grid`.  The merge target is taken from
`segments[0]` after the sort by `segment_id` and before the re-sort by
descending size, so it is the smallest-id segment, not the largest segment;
whenever those differ, the merge loop removes the target's own coordinate
index and then `unwrap`s the missing entry — a panic.  Here segment 1 holds
one grid and segment 2 holds two (a state built through `add_grid` itself,
first conjunct); adding a grid with neighbours in both panics (second
conjunct, `none` = panic) instead of merging everything into segment 2. -/
theorem c1_add_grid_merge_panics :
    c1MapSteps = some c1Map ∧ c1Map.add_grid c1NewGrid c1Neighbours = none := by
  constructor
  · decide
  · decide

/-! ## C4 -/

/-- C4: a stale update (`update.number ≤ last_update`) makes `Session::update`
return `false` and leave the whole session — world, player, tasks,
task-id counter, pending messages, `last_update` — unchanged. -/
theorem c4_stale_update_unchanged {P : Type} (iface : PlayerIface P)
    (parseNC : List Nat → Bool) (s : Session P) (u : Update)
    (h : u.number ≤ s.last_update) :
    Session.update iface parseNC s u = some (false, s) := by
  unfold Session.update
  rw [if_pos h]

/-- Witness for C4 at a concrete session and a stale update number. -/
theorem c4_stale_update_unchanged_witness :
    Session.update optIface (fun _ => true) c4Session ⟨1, 3, .Close⟩ = some (false, c4Session) :=
  c4_stale_update_unchanged optIface (fun _ => true) c4Session ⟨1, 3, .Close⟩ (by decide)

/-! ## C5 -/

/-- C5: counterexample.  `Map::set_tile` has no version check: after storing
version 2 of "snow" under id 1 and then version 1 under id 2, the name
resolves to id 2 (the most recent write), not to the id of the
greatest-version tile. -/
theorem c5_set_tile_counterexample :
    Map.get_tile_id_by_name (fun _ => none)
        ((Map.empty.set_tile c5TileA).set_tile c5TileB) "snow" = some 2 ∧
      c5TileA.name = "snow" ∧ c5TileB.name = "snow" ∧
      c5TileB.version < c5TileA.version ∧ c5TileA.id = 1 := by
  decide

/-- C5 amended: `Map::set_tile` supersedes unconditionally (last write wins),
so `get_tile_id_by_name` resolves to the id of the most recently set tile of
that name, falling back to the external cache only when the name was never
set in memory. -/
theorem c5_set_tile_last_write_wins (db : String → Option Int) (m : Map)
    (ts : List Tile) (n : String) :
    Map.get_tile_id_by_name db (ts.foldl Map.set_tile m) n =
      match ts.reverse.find? (fun t => decide (t.name = n)) with
      | some t => some t.id
      | none => Map.get_tile_id_by_name db m n := by
  induction ts generalizing m with
  | nil => rfl
  | cons t rest ih =>
    rw [List.foldl_cons, ih, List.reverse_cons, List.find?_append]
    cases hfind : rest.reverse.find? (fun t => decide (t.name = n)) with
    | some tf => rw [Option.or_some]
    | none =>
      rw [Option.none_or]
      by_cases hn : t.name = n
      · have hone : [t].find? (fun t => decide (t.name = n)) = some t := by
          simp [List.find?, hn]
        rw [hone]
        simp only [Map.get_tile_id_by_name, Map.set_tile]
        rw [alGet_alInsert, if_pos hn]
      · have hone : [t].find? (fun t => decide (t.name = n)) = none := by
          simp [List.find?, hn]
        rw [hone]
        simp only [Map.get_tile_id_by_name, Map.set_tile]
        rw [alGet_alInsert, if_neg hn]

/-! ## C6 -/

/-- C6: counterexample.  After two `GobAdd` events for object 1 (reaching
`c6World` with revision 2), a `GobRemove` pops the oldest history entry —
the objects table changes — but `Objects::remove` reports `false`, so the
revision stays 2. -/
theorem c6_gob_remove_counterexample :
    c6Steps = some c6World ∧
    c6World.update ⟨1, 3, .GobRemove 1⟩ = some (false, c6WorldAfter) ∧
    c6WorldAfter.revision = c6World.revision ∧ c6WorldAfter ≠ c6World := by
  refine ⟨by decide, by decide, by decide, by decide⟩

/-- C6 amended: `World::update` bumps the revision by exactly 1 whenever
`apply_update` reports a mutation (`true`), and otherwise leaves the revision
and the map unchanged; the only unreported mutation is a `GobRemove` that pops
the oldest entry of a history that stays non-empty. -/
theorem update_map_fields (w : World) (g : MapGrid) (ns : List GridNeighbour) (w3 : World)
    (h : w.update_map g ns = some w3) : w3.revision = w.revision ∧ w3.objects = w.objects := by
  unfold World.update_map at h
  cases halg : alGet w.map.grids g.id with
  | some existing =>
    rw [halg] at h
    cases Option.some.inj h
    exact ⟨rfl, rfl⟩
  | none =>
    rw [halg] at h
    rw [Option.map_eq_some'] at h
    obtain ⟨m, _, hw3⟩ := h
    cases hw3
    exact ⟨rfl, rfl⟩

theorem Objects.remove_false (o : Objects) (id : Int) (ro : Objects)
    (h : o.remove id = (false, ro)) :
    ro = o ∨ ∃ front rest, alGet o.objects id = some (front :: rest) ∧ rest ≠ [] ∧
      ro = { objects := alInsert o.objects id rest,
             objects_by_name := o.objects_by_name } := by
  cases halg : alGet o.objects id with
  | none =>
    simp only [Objects.remove, halg] at h
    exact Or.inl (Prod.mk.inj h).2.symm
  | some dq =>
    cases dq with
    | nil =>
      simp only [Objects.remove, halg] at h
      exact Or.inl (Prod.mk.inj h).2.symm
    | cons front rest =>
      simp only [Objects.remove, halg] at h
      by_cases hre : rest.isEmpty
      · rw [if_pos hre] at h
        cases (Prod.mk.inj h).1
      · rw [if_neg hre] at h
        refine Or.inr ⟨front, rest, rfl, ?_, (Prod.mk.inj h).2.symm⟩
        intro hnil
        exact hre (by rw [hnil]; rfl)

theorem Objects.updateObj_false (o : Objects) (id : Int) (p : Vec2q) (a : ℚ) (ro : Objects)
    (h : o.updateObj id p a = (false, ro)) : ro = o := by
  cases halg : alGet o.objects id with
  | none =>
    simp only [Objects.updateObj, halg] at h
    exact (Prod.mk.inj h).2.symm
  | some dq =>
    cases hlast : dq.getLast? with
    | none =>
      simp only [Objects.updateObj, halg, hlast] at h
      exact (Prod.mk.inj h).2.symm
    | some back =>
      simp only [Objects.updateObj, halg, hlast] at h
      cases (Prod.mk.inj h).1

/-- C6 amended: `World::update` bumps the revision by exactly 1 whenever
`apply_update` reports a mutation (`true`), and a `false` report leaves the
revision and the map unchanged; the only mutation that goes unreported is a
`GobRemove` that pops the oldest entry of a history that stays non-empty
(which changes the objects table without touching the revision). -/
theorem c6_revision_increment (w : World) (u : Update) (b : Bool) (w2 : World)
    (h : w.update u = some (b, w2)) :
    (b = true → w2.revision = w.revision + 1) ∧
    (b = false → w2.revision = w.revision ∧ w2.map = w.map ∧
      (w2 = w ∨ ∃ id front rest, u.event = .GobRemove id ∧
        alGet w.objects.objects id = some (front :: rest) ∧ rest ≠ [] ∧
        w2.objects = { objects := alInsert w.objects.objects id rest,
                       objects_by_name := w.objects.objects_by_name })) := by
  obtain ⟨sess, num, ev⟩ := u
  cases ev
  case MapTile id version name color =>
    have h2 : some ((true, (⟨w.revision + 1, w.objects,
        w.map.set_tile ⟨id, version, name, color⟩⟩ : World))) = some (b, w2) := h
    obtain ⟨hb, hw⟩ := Prod.mk.inj (Option.some.inj h2)
    subst hb; subst hw
    exact ⟨fun _ => rfl, fun hf => by cases hf⟩
  case MapGridAdd grid ns =>
    cases hum : w.update_map grid ns with
    | none =>
      have hnone : World.update w ⟨sess, num, .MapGridAdd grid ns⟩ = none := by
        simp [World.update, World.apply_update, hum]
      rw [hnone] at h
      cases h
    | some w3 =>
      have h2 : World.update w ⟨sess, num, .MapGridAdd grid ns⟩
          = some (true, { w3 with revision := w3.revision + 1 }) := by
        simp [World.update, World.apply_update, hum]
      rw [h2] at h
      obtain ⟨hb, hw⟩ := Prod.mk.inj (Option.some.inj h)
      subst hb; subst hw
      refine ⟨fun _ => ?_, fun hf => by cases hf⟩
      have hrev := (update_map_fields w grid ns w3 hum).1
      show w3.revision + 1 = w.revision + 1
      rw [hrev]
  case MapGridUpdate grid =>
    cases hum : w.update_map grid [] with
    | none =>
      have hnone : World.update w ⟨sess, num, .MapGridUpdate grid⟩ = none := by
        simp [World.update, World.apply_update, hum]
      rw [hnone] at h
      cases h
    | some w3 =>
      have h2 : World.update w ⟨sess, num, .MapGridUpdate grid⟩
          = some (true, { w3 with revision := w3.revision + 1 }) := by
        simp [World.update, World.apply_update, hum]
      rw [h2] at h
      obtain ⟨hb, hw⟩ := Prod.mk.inj (Option.some.inj h)
      subst hb; subst hw
      refine ⟨fun _ => ?_, fun hf => by cases hf⟩
      have hrev := (update_map_fields w grid [] w3 hum).1
      show w3.revision + 1 = w.revision + 1
      rw [hrev]
  case GobAdd id pos ang nm =>
    have h2 : some ((true, (⟨w.revision + 1,
        w.objects.add ⟨id, pos, ang, nm⟩, w.map⟩ : World))) = some (b, w2) := h
    obtain ⟨hb, hw⟩ := Prod.mk.inj (Option.some.inj h2)
    subst hb; subst hw
    exact ⟨fun _ => rfl, fun hf => by cases hf⟩
  case GobRemove id =>
    rcases hrm : w.objects.remove id with ⟨rb, ro⟩
    have h2 : World.update w ⟨sess, num, .GobRemove id⟩
        = some (if rb then (true, (⟨w.revision + 1, ro, w.map⟩ : World))
                else (false, { w with objects := ro })) := by
      simp [World.update, World.apply_update, hrm]
    rw [h2] at h
    cases rb with
    | true =>
      rw [if_pos rfl] at h
      obtain ⟨hb, hw⟩ := Prod.mk.inj (Option.some.inj h)
      subst hb; subst hw
      exact ⟨fun _ => rfl, fun hf => by cases hf⟩
    | false =>
      rw [if_neg (by simp)] at h
      obtain ⟨hb, hw⟩ := Prod.mk.inj (Option.some.inj h)
      subst hb; subst hw
      refine ⟨fun ht => (by cases ht), fun _ => ⟨rfl, rfl, ?_⟩⟩
      rcases Objects.remove_false w.objects id ro hrm with hsame | ⟨front, rest, halg, hrne, hro⟩
      · left
        rw [hsame]
      · right
        exact ⟨id, front, rest, rfl, halg, hrne, by rw [hro]⟩
  case GobMove id pos ang =>
    rcases hrm : w.objects.updateObj id pos ang with ⟨rb, ro⟩
    have h2 : World.update w ⟨sess, num, .GobMove id pos ang⟩
        = some (if rb then (true, (⟨w.revision + 1, ro, w.map⟩ : World))
                else (false, { w with objects := ro })) := by
      simp [World.update, World.apply_update, hrm]
    rw [h2] at h
    cases rb with
    | true =>
      rw [if_pos rfl] at h
      obtain ⟨hb, hw⟩ := Prod.mk.inj (Option.some.inj h)
      subst hb; subst hw
      exact ⟨fun _ => rfl, fun hf => by cases hf⟩
    | false =>
      rw [if_neg (by simp)] at h
      obtain ⟨hb, hw⟩ := Prod.mk.inj (Option.some.inj h)
      subst hb; subst hw
      refine ⟨fun ht => (by cases ht), fun _ => ⟨rfl, rfl, Or.inl ?_⟩⟩
      rw [Objects.updateObj_false w.objects id pos ang ro hrm]
  all_goals {
    have h2 : some ((false, w) : Bool × World) = some (b, w2) := h
    obtain ⟨hb, hw⟩ := Prod.mk.inj (Option.some.inj h2)
    subst hb; subst hw
    exact ⟨fun ht => (by cases ht), fun _ => ⟨rfl, rfl, Or.inl rfl⟩⟩ }

/-- Witness for C6 at a concrete `GobAdd`. -/
theorem c6_revision_increment_witness : c6WitnessWorld.revision = World.empty.revision + 1 :=
  (c6_revision_increment World.empty ⟨1, 1, .GobAdd 1 ⟨0, 0⟩ 0 none⟩ true c6WitnessWorld
    (by decide)).1 rfl

/-! ## C7 -/

/-- C7: counterexample.  `is_adjacent` accepts the diagonal pair
`(0,0)`/`(1,1)`, whose Manhattan distance is 2, so the predicate is not
"Manhattan distance exactly 1". -/
theorem c7_is_adjacent_counterexample :
    is_adjacent ⟨0, 0⟩ ⟨1, 1⟩ = true ∧ manhattanDist ⟨0, 0⟩ ⟨1, 1⟩ ≠ 1 := by decide

/-- C7 amended: away from the `i32` wrap-around boundary, `is_adjacent` holds
exactly when the two points differ by exactly 1 on the x axis or by exactly 1
on the y axis, regardless of the other axis (diagonals and distant same-row /
same-column points included); and each input point joins the first existing
cluster that contains a point adjacent to it (appending a fresh singleton
cluster when none does). -/
theorem c7_adjacency_and_clustering :
    (∀ a b : Vec2i,
      I32_MIN ≤ a.x → a.x < I32_MAX → I32_MIN ≤ a.y → a.y < I32_MAX →
      I32_MIN ≤ b.x → b.x < I32_MAX → I32_MIN ≤ b.y → b.y < I32_MAX →
      (is_adjacent a b = true ↔ ((a.x - b.x).natAbs = 1 ∨ (a.y - b.y).natAbs = 1))) ∧
    (∀ (clusters : List (List Vec2i)) (p : Vec2i),
      (∃ i, i < clusters.length ∧
        (clusters.getD i []).any (fun v => is_adjacent v p) = true ∧
        (∀ j, j < i → (clusters.getD j []).any (fun v => is_adjacent v p) = false) ∧
        addToFirstAdjacent p clusters
          = some (clusters.set i ((clusters.getD i []) ++ [p]))) ∨
      ((∀ c ∈ clusters, c.any (fun v => is_adjacent v p) = false) ∧
        addToFirstAdjacent p clusters = none)) := by
  constructor
  · intro a b hax1 hax2 hay1 hay2 hbx1 hbx2 hby1 hby2
    have h31 : (2 : Int) ^ 31 = 2147483648 := by norm_num
    have h32 : (2 : Int) ^ 32 = 4294967296 := by norm_num
    simp only [I32_MIN, I32_MAX, h31] at hax1 hax2 hay1 hay2 hbx1 hbx2 hby1 hby2
    simp only [is_adjacent, wrap32, h31, h32, Bool.or_eq_true, decide_eq_true_eq]
    omega
  · intro clusters p
    induction clusters with
    | nil => exact Or.inr ⟨fun c hc => absurd hc (List.not_mem_nil c), rfl⟩
    | cons c rest ih =>
      by_cases hc : c.any (fun v => is_adjacent v p) = true
      · refine Or.inl ⟨0, by simp, by simpa using hc, fun j hj => absurd hj (Nat.not_lt_zero j), ?_⟩
        simp [addToFirstAdjacent, hc]
      · have hcf : c.any (fun v => is_adjacent v p) = false := by
          exact Bool.eq_false_iff.mpr hc
        rcases ih with ⟨i, hi, hany, hfirst, heq⟩ | ⟨hall, hnone⟩
        · refine Or.inl ⟨i + 1, by simpa using hi, by simpa using hany, ?_, ?_⟩
          · intro j hj
            cases j with
            | zero => simpa using hcf
            | succ j2 =>
              have := hfirst j2 (by omega)
              simpa using this
          · simp [addToFirstAdjacent, hcf, heq]
        · refine Or.inr ⟨?_, by simp [addToFirstAdjacent, hcf, hnone]⟩
          intro cc hcc
          rcases List.mem_cons.mp hcc with hcc1 | hcc2
          · rw [hcc1]; exact hcf
          · exact hall cc hcc2

/-- Witness for C7's adjacency characterization. -/
theorem c7_adjacency_witness : is_adjacent ⟨0, 0⟩ ⟨1, 5⟩ = true :=
  (c7_adjacency_and_clustering.1 ⟨0, 0⟩ ⟨1, 5⟩ (by decide) (by decide) (by decide) (by decide)
    (by decide) (by decide) (by decide) (by decide)).mpr (Or.inl (by decide))

/-! ## C9 -/

/-- C9: counterexample.  With `player.game_ui_id()` unknown, a fresh
`TaskAdd` of a registered task appends the task but enqueues no `add-task`
message: the pending message queue stays empty. -/
theorem c9_no_game_ui_counterexample :
    Session.update optIface (fun _ => true) c9SessionNoUi ⟨1, 1, .TaskAdd "PathFinder" []⟩
      = some (false, c9AfterNoUi) ∧ c9AfterNoUi.tasks = [⟨1, "PathFinder", []⟩] ∧
      c9AfterNoUi.messages = [] := by
  refine ⟨by decide, by decide, by decide⟩

/-- C9 amended: a fresh `TaskAdd` whose name is registered and whose params
parse appends the task under the freshly incremented id, and enqueues the
`UIMessage(game_ui_id, "add-task", [task_id, name, params])` exactly when the
player's `game_ui_id` is known (no message is enqueued when it is not). -/
theorem c9_task_add (P : Type) (iface : PlayerIface P) (parseNC : List Nat → Bool)
    (s : Session P) (u : Update) (name : String) (params : List Nat) (b : Bool)
    (s2 : Session P)
    (hfresh : s.last_update < u.number)
    (hev : u.event = .TaskAdd name params)
    (hok : make_task_ok parseNC name params = true)
    (hres : Session.update iface parseNC s u = some (b, s2)) :
    s2.task_id_counter = s.task_id_counter + 1 ∧
    s2.tasks = s.tasks ++ [⟨s.task_id_counter + 1, name, params⟩] ∧
    s2.messages = s.messages ++
      (match iface.game_ui_id s.player with
       | some gid => [Message.UIMessage gid "add-task"
           [Value.Long (s.task_id_counter + 1), Value.Str name, Value.Bytes params]]
       | none => []) := by
  obtain ⟨sess, num, ev⟩ := u
  simp only at hev
  subst hev
  simp only at hfresh
  rcases hpu : iface.update (Session.add_task iface parseNC { s with last_update := num }
      name params).player (Session.add_task iface parseNC { s with last_update := num }
      name params).world ⟨sess, num, .TaskAdd name params⟩ with ⟨pb, pp⟩
  simp only [Session.update, not_le.mpr hfresh, if_false, hpu, World.update,
    World.apply_update, Option.map_some'] at hres
  cases hg : iface.game_ui_id s.player with
  | some gid =>
    simp only [Session.add_task, hok, if_true, hg] at hres hpu ⊢
    obtain ⟨hb, hw⟩ := Prod.mk.inj (Option.some.inj hres)
    subst hw
    exact ⟨rfl, rfl, rfl⟩
  | none =>
    simp only [Session.add_task, hok, if_true, hg] at hres hpu ⊢
    obtain ⟨hb, hw⟩ := Prod.mk.inj (Option.some.inj hres)
    subst hw
    exact ⟨rfl, rfl, by simp⟩

/-- Witness for C9 on a session whose `game_ui_id` is known. -/
theorem c9_task_add_witness :
    c9AfterUi.task_id_counter = c9SessionUi.task_id_counter + 1 ∧
    c9AfterUi.tasks = c9SessionUi.tasks ++ [⟨c9SessionUi.task_id_counter + 1, "PathFinder", []⟩] ∧
    c9AfterUi.messages = c9SessionUi.messages ++
      (match optIface.game_ui_id c9SessionUi.player with
       | some gid => [Message.UIMessage gid "add-task"
           [Value.Long (c9SessionUi.task_id_counter + 1), Value.Str "PathFinder", Value.Bytes []]]
       | none => []) :=
  c9_task_add (Option Int) optIface (fun _ => true) c9SessionUi ⟨1, 1, .TaskAdd "PathFinder" []⟩
    "PathFinder" [] false c9AfterUi (by decide) rfl (by decide) (by decide)

/-! ## C10 -/

theorem push_deduped_eq_of_ne (outbound : List Message) (m : Message)
    (h : outbound.getLast? ≠ some m) : push_deduped outbound m = outbound ++ [m] := by
  unfold push_deduped
  rw [if_pos (Or.inr h)]

theorem push_deduped_eq_of_eq (outbound : List Message) (m : Message)
    (h : outbound.getLast? = some m) : push_deduped outbound m = outbound := by
  unfold push_deduped
  rw [if_neg]
  rintro (he | hne)
  · rw [List.isEmpty_iff] at he
    subst he
    cases h
  · exact hne h

theorem drain_existing_spec (cands : List Message) : ∀ outbound : List Message,
    drain_existing outbound cands = outbound ++ emit_spec outbound.getLast? cands := by
  induction cands with
  | nil => intro outbound; simp [drain_existing, emit_spec]
  | cons c cs ih =>
    intro outbound
    show drain_existing (push_deduped outbound c) cs = _
    by_cases h : outbound.getLast? = some c
    · rw [push_deduped_eq_of_eq _ _ h, ih]
      have : emit_spec outbound.getLast? (c :: cs) = emit_spec outbound.getLast? cs := by
        rw [show emit_spec outbound.getLast? (c :: cs)
            = if outbound.getLast? = some c then emit_spec outbound.getLast? cs
              else c :: emit_spec (some c) cs from rfl, if_pos h]
      rw [this, h]
    · rw [push_deduped_eq_of_ne _ _ h, ih, List.getLast?_concat, List.append_assoc]
      rw [show emit_spec outbound.getLast? (c :: cs)
          = if outbound.getLast? = some c then emit_spec outbound.getLast? cs
            else c :: emit_spec (some c) cs from rfl, if_neg h]
      rfl

theorem drain_existing_append (outbound xs ys : List Message) :
    drain_existing outbound (xs ++ ys) = drain_existing (drain_existing outbound xs) ys := by
  induction xs generalizing outbound with
  | nil => rfl
  | cons x xt ih =>
    show drain_existing (push_deduped outbound x) (xt ++ ys) = _
    exact ih (push_deduped outbound x)

/-- C10: in one `process_session` tick, every candidate — drained pending
message or task-produced message — is appended to the outbound queue exactly
when the queue is empty or its back differs from the candidate; a candidate
equal to the most recently queued message is dropped (`emit_spec` is that rule
written from the claim). -/
theorem c10_outbound_dedup (outbound pending : List Message) (next : Option Message) :
    process_session_messages outbound pending next
      = outbound ++ emit_spec outbound.getLast? (pending ++ next.toList) := by
  have hflat : process_session_messages outbound pending next
      = drain_existing outbound (pending ++ next.toList) := by
    cases next with
    | none =>
      show drain_existing outbound pending = drain_existing outbound (pending ++ [])
      rw [List.append_nil]
    | some m =>
      show push_deduped (drain_existing outbound pending) m = _
      rw [show (some m).toList = [m] from rfl, drain_existing_append]
      rfl
  rw [hflat, drain_existing_spec]

/-! ## C3 -/

theorem next_message_loop_spec (taskNext : TaskWithParams → Option Message) :
    ∀ (tasks : List TaskWithParams) (acc : Option Message),
    next_message_loop taskNext tasks acc =
      match (tasks.filterMap taskNext).find? (fun m => !m.isDone) with
      | some m => some m
      | none =>
        match (tasks.filterMap taskNext).getLast? with
        | some d => some d
        | none => acc := by
  intro tasks
  induction tasks with
  | nil => intro acc; rfl
  | cons t rest ih =>
    intro acc
    cases ht : taskNext t with
    | none =>
      simp only [next_message_loop, ht, ih]
      simp [List.filterMap_cons, ht]
    | some v =>
      cases hd : v.isDone with
      | false =>
        simp only [next_message_loop, ht, hd]
        rw [if_neg (by decide : ¬ false = true)]
        simp [List.filterMap_cons, ht, List.find?_cons, hd]
      | true =>
        simp only [next_message_loop, ht, hd]
        rw [if_pos trivial, ih]
        simp only [List.filterMap_cons, ht]
        rw [List.find?_cons_of_neg _ (by rw [hd]; decide)]
        cases hfm : (rest.filterMap taskNext).find? (fun m => !m.isDone) with
        | some m => rfl
        | none =>
          cases hfl : rest.filterMap taskNext with
          | nil => rfl
          | cons f ft =>
            rw [List.getLast?_cons_cons]
            cases hgl : (f :: ft).getLast? with
            | none => exact absurd hgl (by simp)
            | some d => rfl

/-- C3: with an eligible `PlayerWorld`, `Session::get_next_message` yields the
first task result that is a non-`Done` message; if every produced message is
`Done`, the last of them; and `none` when no task produces a message (without
an eligible world it is `none`, which the eligibility hypothesis excludes). -/
theorem c3_get_next_message {P : Type} (iface : PlayerIface P)
    (taskNext : TaskWithParams → Option Message) (s : Session P) (gid : Int)
    (h : iface.for_player_ui s.world s.player = some gid) :
    Session.get_next_message iface taskNext s =
      match (s.tasks.filterMap taskNext).find? (fun m => !m.isDone) with
      | some m => some m
      | none => (s.tasks.filterMap taskNext).getLast? := by
  unfold Session.get_next_message
  rw [h, next_message_loop_spec]
  cases hf : (s.tasks.filterMap taskNext).find? (fun m => !m.isDone) with
  | some m => rfl
  | none =>
    cases hgl : (s.tasks.filterMap taskNext).getLast? with
    | some d => rfl
    | none => rfl

/-- Witness for C3: the `Done` of the second task is recorded but superseded
by the third task's message. -/
theorem c3_get_next_message_witness :
    Session.get_next_message optIface c3TaskNext c3Session = some Message.Ok :=
  c3_get_next_message optIface c3TaskNext c3Session 6 rfl

set_option maxRecDepth 8000 in
/-- C2: counterexample.  On the corridor fixture, `find_path` from `(0,0)` to
`(2,0)` (reversed A* path `[(2,0),(1,0)]`, no valid shortcut at
`max_shortcut_length = -1`) returns `[(1,0)]`, whose last element is not the
destination: the shorten loop never emits `r[0] = dst` when no shortcut to it
is found.  And with `src = dst` on an unreachable tile, `find_path` returns
`[dst]` before any reachability check, so the returned path visits a tile
whose id is present in the map but absent from the weights. -/
theorem c2_find_path_counterexample :
    Map.empty.add_grid c2Grid [] = some c2Map ∧
    find_path sqrtId c2PW ⟨0, 0⟩ ⟨2, 0⟩ c2Weights (-1) 10 false = some [⟨1, 0⟩] ∧
    (⟨1, 0⟩ : Vec2i) ≠ ⟨2, 0⟩ ∧
    find_path sqrtId c2PW ⟨0, 2⟩ ⟨0, 2⟩ c2Weights (-1) 10 false = some [⟨0, 2⟩] ∧
    c2PW.get_tile ⟨0, 2⟩ = some 2 ∧ weightsGet c2Weights 2 = none := by
  refine ⟨by decide, by decide, by decide, by decide, by decide, by decide⟩



/-! ### C2 helper lemmas -/

theorem Adjacent8_symm {a b : Vec2i} (h : Adjacent8 a b) : Adjacent8 b a := by
  obtain ⟨hne, hx, hy⟩ := h
  exact ⟨fun e => hne e.symm, by rw [abs_sub_comm]; exact hx, by rw [abs_sub_comm]; exact hy⟩

theorem edgeShift_props : ∀ s ∈ edgeShifts, s ≠ Vec2i.zero ∧ |s.x| ≤ 1 ∧ |s.y| ≤ 1 := by
  decide

theorem adjacent8_shift (a s : Vec2i) (hs : s ∈ edgeShifts) : Adjacent8 (a + s) a := by
  obtain ⟨hne, hx, hy⟩ := edgeShift_props s hs
  refine ⟨?_, ?_, ?_⟩
  · intro h
    apply hne
    have hx0 : a.x + s.x = a.x := congrArg Vec2i.x h
    have hy0 : a.y + s.y = a.y := congrArg Vec2i.y h
    have hsx : s.x = 0 := by omega
    have hsy : s.y = 0 := by omega
    cases s
    simp only [Vec2i.zero, Vec2i.mk.injEq]
    exact ⟨hsx, hsy⟩
  · show |a.x + s.x - a.x| ≤ 1
    rw [add_sub_cancel_left]; exact hx
  · show |a.y + s.y - a.y| ≤ 1
    rw [add_sub_cancel_left]; exact hy

theorem is_valid_shortcut_refl (sqrt : ℚ → ℚ) (pw : PlayerWorld) (allowed : TileWeights)
    (a : Vec2i) (maxLen : ℚ) : is_valid_shortcut sqrt pw allowed a a maxLen = true := by
  simp [is_valid_shortcut, is_valid_shortcut_by_x, is_valid_shortcut_by_x_aux]

theorem chain_mem_exists {α : Type} {R : α → α → Prop} :
    ∀ {l : List α} {x : α}, List.Chain R x l → ∀ b ∈ l, ∃ a, R a b := by
  intro l
  induction l with
  | nil => intro x _ b hb; cases hb
  | cons y t ih =>
    intro x h b hb
    rw [List.chain_cons] at h
    rcases List.mem_cons.mp hb with hb | hb
    · exact ⟨x, hb ▸ h.1⟩
    · exact ih h.2 b hb

theorem chain_getD {α : Type} {R : α → α → Prop} (d : α) :
    ∀ (l : List α) (x : α), List.Chain R x l →
      ∀ j, j + 1 < (x :: l).length → R ((x :: l).getD j d) ((x :: l).getD (j + 1) d) := by
  intro l
  induction l with
  | nil => intro x _ j hj; simp at hj
  | cons y t ih =>
    intro x h j hj
    rw [List.chain_cons] at h
    match j with
    | 0 => exact h.1
    | Nat.succ k =>
      have := ih y h.2 k (by simpa using Nat.lt_of_succ_lt_succ hj)
      simpa using this

theorem foldlM_option_preserve {α β : Type} (P : β → Prop) (f : β → α → Option β) :
    ∀ (es : List α) (st st' : β), (∀ e ∈ es, ∀ s s', f s e = some s' → P s → P s') →
      List.foldlM f st es = some st' → P st → P st' := by
  intro es
  induction es with
  | nil =>
    intro st st' _ h hP
    simp only [List.foldlM_nil] at h
    cases h; exact hP
  | cons a as ih =>
    intro st st' hstep h hP
    rw [List.foldlM_cons] at h
    cases hfa : f st a with
    | none => rw [hfa] at h; simp at h
    | some s1 =>
      rw [hfa] at h
      simp only [Option.bind_eq_bind, Option.some_bind] at h
      exact ih s1 st' (fun e he s s' hf hp => hstep e (List.mem_cons_of_mem a he) s s' hf hp) h
        (hstep a (List.mem_cons_self a as) st s1 hfa hP)

theorem reconstructAux_chain (src : Vec2i) (bt : List (Vec2i × Vec2i)) :
    ∀ (fuel : Nat) (current : Vec2i) (l : List Vec2i),
      reconstructAux src bt fuel current = some l →
      List.Chain (fun a b => alGet bt a = some b) current l ∧ (alGet bt current).isSome := by
  intro fuel
  induction fuel with
  | zero => intro current l h; cases h
  | succ n ih =>
    intro current l h
    rw [reconstructAux] at h
    split at h
    · exact Option.noConfusion h
    next prev hg =>
      refine ⟨?_, by rw [hg]; rfl⟩
      by_cases hp : prev = src
      · rw [if_pos hp] at h
        cases h
        exact List.Chain.nil
      · rw [if_neg hp] at h
        cases hrec : reconstructAux src bt n prev with
        | none => rw [hrec] at h; exact Option.noConfusion h
        | some l2 =>
          rw [hrec] at h
          simp only [Option.map_some'] at h
          cases h
          exact List.Chain.cons hg (ih prev l2 hrec).1

theorem reconstruct_path_result (src dst : Vec2i) (bt : List (Vec2i × Vec2i)) (r : List Vec2i)
    (h : reconstruct_path src dst bt = some r) :
    ∃ l, r = dst :: l ∧ List.Chain (fun a b => alGet bt a = some b) dst l ∧
      (alGet bt dst).isSome := by
  rw [reconstruct_path] at h
  cases haux : reconstructAux src bt (bt.length + 1) dst with
  | none => rw [haux] at h; exact Option.noConfusion h
  | some l =>
    rw [haux] at h
    simp only [Option.map_some'] at h
    cases h
    obtain ⟨hc, hs⟩ := reconstructAux_chain src bt (bt.length + 1) dst l haux
    exact ⟨l, rfl, hc, hs⟩


theorem WeightedAt_of_parts {pw : PlayerWorld} {weights : TileWeights} {q : Vec2i} {t : Int}
    (ht : pw.get_tile q = some t) (hw : (weightsGet weights t).isSome) :
    WeightedAt pw weights q := by
  unfold WeightedAt get_weight
  rw [ht]
  simpa using hw

theorem ReachableTile_of_weighted {pw : PlayerWorld} {weights : TileWeights} {q : Vec2i}
    (h : WeightedAt pw weights q) : ReachableTile pw weights q := by
  unfold WeightedAt get_weight at h
  cases ht : pw.get_tile q with
  | none => exact Or.inl ht
  | some t =>
    rw [ht] at h
    exact Or.inr ⟨t, ht, h⟩

theorem expand_edge_backtrack (sqrt : ℚ → ℚ) (pw : PlayerWorld) (weights : TileWeights)
    (dst tile_pos : Vec2i) (weight : ℚ) (st : AState) (e : Vec2i × ℚ) (st' : AState)
    (h : expand_edge sqrt pw weights dst tile_pos weight st e = some st') :
    st'.backtrack = st.backtrack ∨
      (st'.backtrack = alInsert st.backtrack (tile_pos + e.1) tile_pos ∧
       WeightedAt pw weights (tile_pos + e.1)) := by
  simp only [expand_edge] at h
  split at h
  · cases h; exact Or.inl rfl
  next nw hnw =>
    have hW : WeightedAt pw weights (tile_pos + e.1) := by
      unfold WeightedAt; rw [hnw]; rfl
    split at h
    · cases h; exact Or.inl rfl
    split at h
    · cases h; exact Or.inl rfl
    split at h
    · exact Option.noConfusion h
    next cur hcur =>
      split at h
      · split at h
        · cases h; exact Or.inr ⟨rfl, hW⟩
        · cases h; exact Or.inr ⟨rfl, hW⟩
      · cases h; exact Or.inl rfl

theorem a_star_loop_result (sqrt : ℚ → ℚ) (pw : PlayerWorld) (weights : TileWeights)
    (src dst : Vec2i) (cancel : Bool) :
    ∀ (fuel : Nat) (st : AState) (r : List Vec2i),
      BtInv pw weights st.backtrack →
      a_star_loop sqrt pw weights src dst cancel fuel st = some r →
      r = [] ∨ ∃ bt, BtInv pw weights bt ∧ reconstruct_path src dst bt = some r := by
  intro fuel
  induction fuel with
  | zero =>
    intro st r inv h
    rw [a_star_loop] at h
    simp only [] at h
    split at h
    · cases h; exact Or.inl rfl
    next se rest hpop =>
      split at h
      · exact Or.inr ⟨st.backtrack, inv, h⟩
      split at h
      · cases h; exact Or.inl rfl
      cases h; exact Or.inl rfl
  | succ n ih =>
    intro st r inv h
    rw [a_star_loop] at h
    simp only [] at h
    split at h
    · cases h; exact Or.inl rfl
    next se rest hpop =>
      split at h
      · exact Or.inr ⟨st.backtrack, inv, h⟩
      split at h
      · cases h; exact Or.inl rfl
      split at h
      next tile htile =>
        split at h
        next w hwt =>
          split at h
          · exact Option.noConfusion h
          next st2 hfold =>
            refine ih st2 r ?_ h
            refine foldlM_option_preserve (fun s => BtInv pw weights s.backtrack)
              (expand_edge sqrt pw weights dst se.2 w) EDGES _ st2 ?_ hfold inv
            intro e he s s' hee hbs k v hk
            rcases expand_edge_backtrack sqrt pw weights dst se.2 w s e s' hee with
              hsame | ⟨hins, hWk⟩
            · rw [hsame] at hk; exact hbs k v hk
            · rw [hins, alGet_alInsert] at hk
              by_cases hke : se.2 + e.1 = k
              · rw [if_pos hke] at hk
                cases hk
                refine ⟨hke ▸ adjacent8_shift se.2 e.1 (List.mem_map_of_mem Prod.fst he), ?_, ?_⟩
                · exact hke ▸ hWk
                · exact WeightedAt_of_parts htile (by rw [hwt]; rfl)
              · rw [if_neg hke] at hk
                exact hbs k v hk
        next hwt =>
          refine ih _ r ?_ h
          exact inv
      next htile =>
        refine ih _ r ?_ h
        exact inv

theorem find_reversed_result (sqrt : ℚ → ℚ) (pw : PlayerWorld) (weights : TileWeights)
    (src dst : Vec2i) (fuel : Nat) (cancel : Bool) (r : List Vec2i)
    (h : find_reversed_tiles_path sqrt pw weights src dst fuel cancel = some r) :
    r = [] ∨ ((∃ tail, r = dst :: tail) ∧ (∀ x ∈ r, WeightedAt pw weights x) ∧
      ∀ j, j + 1 < r.length → Adjacent8 (r.getD j Vec2i.zero) (r.getD (j + 1) Vec2i.zero)) := by
  simp only [find_reversed_tiles_path] at h
  split at h
  · cases h; exact Or.inl rfl
  · have h0 : BtInv pw weights ([] : List (Vec2i × Vec2i)) :=
      fun k v hk => Option.noConfusion hk
    rcases a_star_loop_result sqrt pw weights src dst cancel fuel _ r h0 h with
      h1 | ⟨bt, hbt, hrec⟩
    · exact Or.inl h1
    · obtain ⟨l, hr, hchain, hsome⟩ := reconstruct_path_result src dst bt r hrec
      right
      refine ⟨⟨l, hr⟩, ?_, ?_⟩
      · intro x hx
        rw [hr] at hx
        rcases List.mem_cons.mp hx with hx | hx
        · subst hx
          cases hg : alGet bt x with
          | none => rw [hg] at hsome; exact absurd hsome (by simp)
          | some v => exact (hbt x v hg).2.1
        · obtain ⟨a, ha⟩ := chain_mem_exists hchain x hx
          exact (hbt a x ha).2.2
      · intro j hj
        rw [hr] at hj ⊢
        exact (hbt _ _ (chain_getD Vec2i.zero l dst hchain j hj)).1


theorem descSuffix_succ (r : List Vec2i) (n : Nat) :
    descSuffix r (n + 1) = r.getD (n + 1) Vec2i.zero :: descSuffix r n := by
  simp [descSuffix, List.range_succ]

theorem descSuffix_mem (r : List Vec2i) (n : Nat) (x : Vec2i) (hx : x ∈ descSuffix r n) :
    ∃ j, j ≤ n ∧ x = r.getD j Vec2i.zero := by
  unfold descSuffix at hx
  obtain ⟨i, hi, hxi⟩ := List.mem_map.mp hx
  rw [List.mem_reverse, List.mem_range] at hi
  exact ⟨i + 1, by omega, hxi.symm⟩

theorem descSuffix_chain_above (sqrt : ℚ → ℚ) (pw : PlayerWorld) (allowed : TileWeights)
    (maxLen : ℚ) (r : List Vec2i) :
    ∀ n, n + 1 < r.length →
      List.Chain (StepOk sqrt pw allowed maxLen r) (r.getD (n + 1) Vec2i.zero)
        (descSuffix r n) := by
  intro n
  induction n with
  | zero => intro _; exact List.Chain.nil
  | succ m ih =>
    intro hn
    rw [descSuffix_succ]
    exact List.Chain.cons (Or.inr (Or.inr ⟨m + 1, hn, rfl, rfl⟩)) (ih (by omega))

theorem descSuffix_chain (sqrt : ℚ → ℚ) (pw : PlayerWorld) (allowed : TileWeights)
    (maxLen : ℚ) (r : List Vec2i) (n : Nat) (hn : n < r.length) :
    List.Chain (StepOk sqrt pw allowed maxLen r) (r.getD n Vec2i.zero) (descSuffix r n) := by
  match n, hn with
  | 0, _ => exact List.Chain.nil
  | Nat.succ m, hn =>
    rw [descSuffix_succ]
    exact List.Chain.cons (Or.inl rfl) (descSuffix_chain_above sqrt pw allowed maxLen r m hn)

theorem descSuffix_getLast (r : List Vec2i) :
    ∀ n, 0 < n → (descSuffix r n).getLast? = some (r.getD 1 Vec2i.zero) := by
  intro n
  induction n with
  | zero => intro h; exact absurd h (by omega)
  | succ m ih =>
    intro _
    rw [descSuffix_succ]
    match m, ih with
    | 0, _ => rfl
    | Nat.succ k, ih =>
      rw [descSuffix_succ, List.getLast?_cons_cons, ← descSuffix_succ]
      exact ih (Nat.succ_pos k)

theorem getLast?_cons_of_some {α : Type} (a : α) {l : List α} {y : α}
    (h : l.getLast? = some y) : (a :: l).getLast? = some y := by
  cases l with
  | nil => exact Option.noConfusion h
  | cons b t => rw [List.getLast?_cons_cons]; exact h

theorem shortenLoop_cascade (sqrt : ℚ → ℚ) (pw : PlayerWorld) (allowed : TileWeights)
    (maxLen : ℚ) (r : List Vec2i) :
    ∀ (fuel last : Nat) (current : Vec2i), last ≤ fuel →
      (∀ i, i < last →
        is_valid_shortcut sqrt pw allowed current (r.getD i Vec2i.zero) maxLen = false) →
      shortenLoop sqrt pw allowed maxLen r fuel last current = descSuffix r last := by
  intro fuel
  induction fuel with
  | zero =>
    intro last current hle _
    have h0 : last = 0 := Nat.le_zero.mp hle
    subst h0
    rfl
  | succ f ih =>
    intro last current hle hall
    cases last with
    | zero => rw [shortenLoop, if_pos rfl]; rfl
    | succ m =>
      have hfind : (List.range (m + 1)).find?
          (fun i => is_valid_shortcut sqrt pw allowed current (r.getD i Vec2i.zero) maxLen)
            = none := by
        apply List.find?_eq_none.mpr
        intro i hi
        rw [List.mem_range] at hi
        simp only [hall i hi]
        exact Bool.false_ne_true
      rw [shortenLoop, if_neg (Nat.succ_ne_zero m)]
      simp only [hfind, Option.getD_none, if_pos]
      rw [descSuffix_succ]
      have htail := ih m current (Nat.le_of_succ_le_succ hle) (fun i hi => hall i (by omega))
      rw [Nat.succ_sub_one, htail]

theorem shortenLoop_spec (sqrt : ℚ → ℚ) (pw : PlayerWorld) (allowed : TileWeights)
    (maxLen : ℚ) (r : List Vec2i) :
    ∀ (fuel last : Nat) (current : Vec2i),
      current = r.getD last Vec2i.zero → last < r.length → last + 1 ≤ fuel →
      (∀ x ∈ shortenLoop sqrt pw allowed maxLen r fuel last current,
          ∃ j, j < r.length ∧ x = r.getD j Vec2i.zero) ∧
      List.Chain (StepOk sqrt pw allowed maxLen r) current
        (shortenLoop sqrt pw allowed maxLen r fuel last current) ∧
      (0 < last →
        (shortenLoop sqrt pw allowed maxLen r fuel last current).getLast?
            = some (r.getD 0 Vec2i.zero) ∨
        (shortenLoop sqrt pw allowed maxLen r fuel last current).getLast?
            = some (r.getD 1 Vec2i.zero)) ∧
      (last = 0 → shortenLoop sqrt pw allowed maxLen r fuel last current = []) := by
  intro fuel
  induction fuel with
  | zero => intro last current _ _ hf; exact absurd hf (by omega)
  | succ f ih =>
    intro last current hcur hlen hf
    cases last with
    | zero =>
      have he : shortenLoop sqrt pw allowed maxLen r (Nat.succ f) 0 current = [] := by
        rw [shortenLoop, if_pos rfl]
      refine ⟨?_, ?_, ?_, fun _ => he⟩
      · intro x hx; rw [he] at hx; cases hx
      · rw [he]; exact List.Chain.nil
      · intro h0; exact absurd h0 (by omega)
    | succ m =>
      cases hfind : (List.range (Nat.succ m)).find?
          (fun i => is_valid_shortcut sqrt pw allowed current (r.getD i Vec2i.zero) maxLen) with
      | none =>
        have hall : ∀ i, i < Nat.succ m →
            is_valid_shortcut sqrt pw allowed current (r.getD i Vec2i.zero) maxLen = false := by
          intro i hi
          have := List.find?_eq_none.mp hfind i (List.mem_range.mpr hi)
          simpa using this
        have hcas := shortenLoop_cascade sqrt pw allowed maxLen r (Nat.succ f) (Nat.succ m)
          current (by omega) hall
        rw [hcas]
        refine ⟨?_, ?_, ?_, ?_⟩
        · intro x hx
          obtain ⟨j, hj, hxe⟩ := descSuffix_mem r (Nat.succ m) x hx
          exact ⟨j, by omega, hxe⟩
        · exact hcur ▸ descSuffix_chain sqrt pw allowed maxLen r (Nat.succ m) hlen
        · intro _
          exact Or.inr (descSuffix_getLast r (Nat.succ m) (Nat.succ_pos m))
        · intro h0; exact absurd h0 (Nat.succ_ne_zero m)
      | some i =>
        have hiP := List.find?_some hfind
        have him : i < Nat.succ m := List.mem_range.mp (List.mem_of_find?_eq_some hfind)
        obtain ⟨hmem, hchain, hlast, hzero⟩ :=
          ih i (r.getD i Vec2i.zero) rfl (by omega) (by omega)
        have hstep : shortenLoop sqrt pw allowed maxLen r (Nat.succ f) (Nat.succ m) current
            = r.getD i Vec2i.zero
              :: shortenLoop sqrt pw allowed maxLen r f i (r.getD i Vec2i.zero) := by
          rw [shortenLoop, if_neg (Nat.succ_ne_zero m)]
          simp only [hfind, Option.getD_some]
          rw [if_neg (by omega : ¬ i = Nat.succ m)]
        rw [hstep]
        refine ⟨?_, ?_, ?_, ?_⟩
        · intro x hx
          rcases List.mem_cons.mp hx with hx | hx
          · exact ⟨i, by omega, hx⟩
          · exact hmem x hx
        · exact List.Chain.cons (Or.inr (Or.inl (by simpa using hiP))) hchain
        · intro _
          cases Nat.eq_zero_or_pos i with
          | inl hi0 =>
            subst hi0
            rw [hzero rfl]
            exact Or.inl rfl
          | inr hipos =>
            rcases hlast hipos with hl | hl
            · exact Or.inl (getLast?_cons_of_some _ hl)
            · exact Or.inr (getLast?_cons_of_some _ hl)
        · intro h0; exact absurd h0 (Nat.succ_ne_zero m)

theorem chain'_of_chain {α : Type} {R : α → α → Prop} {x : α} {l : List α}
    (h : List.Chain R x l) : List.Chain' R l := by
  cases l with
  | nil => trivial
  | cons y t => exact (List.chain_cons.mp h).2

/-- C2 amended: whenever `find_path` returns a path `p`, then: if `src = dst`
the path is just `[dst]` (with no reachability check on `dst`); otherwise
every element of `p` is reachable, every consecutive pair is 8-adjacent or a
validated shortcut, and the last element is the destination **or merely
8-adjacent to it** (the shorten loop drops the destination when no shortcut
to it is found); the first element need not be adjacent to the source. -/
theorem c2_find_path_properties (sqrt : ℚ → ℚ) (pw : PlayerWorld) (src dst : Vec2i)
    (weights : TileWeights) (maxLen : ℚ) (fuel : Nat) (cancel : Bool) (p : List Vec2i)
    (h : find_path sqrt pw src dst weights maxLen fuel cancel = some p) :
    (src = dst → p = [dst]) ∧
    (src ≠ dst →
      (∀ q ∈ p, ReachableTile pw weights q) ∧
      List.Chain' (fun a b => Adjacent8 a b ∨
        is_valid_shortcut sqrt pw weights a b maxLen = true) p ∧
      ∀ lastE, p.getLast? = some lastE → lastE = dst ∨ Adjacent8 lastE dst) := by
  unfold find_path at h
  by_cases hsd : src = dst
  · rw [if_pos hsd] at h
    cases h
    exact ⟨fun _ => rfl, fun hne => absurd hsd hne⟩
  · rw [if_neg hsd] at h
    refine ⟨fun he => absurd he hsd, fun _ => ?_⟩
    cases hfr : find_reversed_tiles_path sqrt pw weights src dst fuel cancel with
    | none => rw [hfr] at h; exact Option.noConfusion h
    | some r =>
      rw [hfr] at h
      simp only [Option.map_some'] at h
      rcases find_reversed_result sqrt pw weights src dst fuel cancel r hfr with
        hre | ⟨⟨tail, hrdst⟩, hWmem, hAdj⟩
      · subst hre
        rw [show shorten_reversed_tiles_path sqrt pw weights maxLen [] = [] from rfl] at h
        cases Option.some.inj h
        exact ⟨fun q hq => absurd hq (List.not_mem_nil q), List.chain'_nil,
          fun lastE hl => Option.noConfusion hl⟩
      · by_cases hlen : r.length < 2
        · rw [shorten_reversed_tiles_path, if_pos hlen] at h
          cases Option.some.inj h
          have htail : tail = [] := by
            subst hrdst
            simp only [List.length_cons] at hlen
            exact List.length_eq_zero.mp (by omega)
          subst htail
          subst hrdst
          refine ⟨?_, List.chain'_singleton dst, ?_⟩
          · intro q hq
            rw [List.mem_singleton] at hq
            subst hq
            exact ReachableTile_of_weighted (hWmem q (List.mem_singleton.mpr rfl))
          · intro lastE hl
            rw [show ([dst] : List Vec2i).getLast? = some dst from rfl] at hl
            exact Or.inl (Option.some.inj hl).symm
        · rw [shorten_reversed_tiles_path, if_neg hlen] at h
          obtain ⟨hmem, hchain, hlastc, _⟩ :=
            shortenLoop_spec sqrt pw weights maxLen r r.length (r.length - 1)
              (r.getD (r.length - 1) Vec2i.zero) rfl (by omega) (by omega)
          cases Option.some.inj h
          have hgd0 : r.getD 0 Vec2i.zero = dst := by rw [hrdst]; rfl
          refine ⟨?_, ?_, ?_⟩
          · intro q hq
            obtain ⟨j, hj, hqe⟩ := hmem q hq
            subst hqe
            refine ReachableTile_of_weighted (hWmem _ ?_)
            rw [List.getD_eq_getElem r Vec2i.zero hj]
            exact List.getElem_mem hj
          · refine (chain'_of_chain hchain).imp ?_
            intro a b hab
            rcases hab with hab | hab | ⟨j, hj, ha, hb⟩
            · subst hab
              exact Or.inr (is_valid_shortcut_refl sqrt pw weights a maxLen)
            · exact Or.inr hab
            · subst ha; subst hb
              exact Or.inl (Adjacent8_symm (hAdj j hj))
          · intro lastE hl
            rcases hlastc (by omega) with hc | hc
            · rw [hl] at hc
              exact Or.inl (by rw [← hgd0]; exact Option.some.inj hc)
            · rw [hl] at hc
              have hlE : lastE = r.getD 1 Vec2i.zero := Option.some.inj hc
              subst hlE
              refine Or.inr ?_
              rw [← hgd0]
              exact Adjacent8_symm (hAdj 0 (by omega))

/-- Witness for C2 at a concrete run (`src ≠ dst`, one-step path). -/
theorem c2_find_path_properties_witness :
    find_path sqrtId c2PW ⟨0, 0⟩ ⟨1, 0⟩ c2Weights (-1) 10 false = some [⟨1, 0⟩] ∧
    ReachableTile c2PW c2Weights ⟨1, 0⟩ := by
  have h : find_path sqrtId c2PW ⟨0, 0⟩ ⟨1, 0⟩ c2Weights (-1) 10 false = some [⟨1, 0⟩] := by
    decide
  refine ⟨h, ?_⟩
  exact ((c2_find_path_properties sqrtId c2PW ⟨0, 0⟩ ⟨1, 0⟩ c2Weights (-1) 10 false
    [⟨1, 0⟩] h).2 (by decide)).1 ⟨1, 0⟩ (List.mem_singleton.mpr rfl)

/-! ### C8 helper lemmas -/

theorem signumQ_cases (q : ℚ) : signumQ q = 1 ∨ signumQ q = -1 := by
  unfold signumQ
  by_cases h : q < 0
  · exact Or.inr (if_pos h)
  · exact Or.inl (if_neg h)

theorem signumQ_pos {q : ℚ} (h : 0 < q) : signumQ q = 1 := by
  unfold signumQ
  exact if_neg (by linarith)

theorem signumQ_neg {q : ℚ} (h : q < 0) : signumQ q = -1 := by
  unfold signumQ
  exact if_pos h

theorem lt_border_coord_pos (x : ℚ) : x < get_border_coord x 1 := by
  unfold get_border_coord
  rw [if_pos (by norm_num : (1:ℚ) > 0)]
  exact Int.lt_floor_add_one x

theorem border_coord_neg_lt (x : ℚ) : get_border_coord x (-1) < x := by
  unfold get_border_coord
  rw [if_neg (by norm_num : ¬ ((-1:ℚ) > 0))]
  have := Int.ceil_lt_add_one x
  push_cast at this ⊢
  linarith

theorem grid_coord_border_step (x s : ℚ) (hs : s = 1 ∨ s = -1) :
    get_grid_coord (get_border_coord x s) s = get_grid_coord x s + s := by
  rcases hs with hs | hs <;> subst hs <;>
    unfold get_grid_coord get_border_coord
  · simp only [if_pos (by norm_num : (1:ℚ) > 0)]
    rw [show ((⌊x⌋ : ℚ) + 1) = (((⌊x⌋ + 1 : ℤ)) : ℚ) by push_cast; ring, Int.floor_intCast]
    try push_cast
    try ring
  · simp only [if_neg (by norm_num : ¬ ((-1:ℚ) > 0))]
    rw [show ((⌈x⌉ : ℚ) - 1 - 1) = (((⌈x⌉ - 2 : ℤ)) : ℚ) by push_cast; ring, Int.ceil_intCast]
    rw [show (x - 1) = (x + ((-1 : ℤ) : ℚ)) by push_cast; ring, Int.ceil_add_int]
    try push_cast
    try ring

theorem grid_coord_stable_pos (p v : ℚ) (h1 : p ≤ v) (h2 : v < get_border_coord p 1) :
    get_grid_coord v 1 = get_grid_coord p 1 := by
  unfold get_grid_coord
  simp only [if_pos (by norm_num : (1:ℚ) > 0)]
  unfold get_border_coord at h2
  rw [if_pos (by norm_num : (1:ℚ) > 0)] at h2
  have hfl : ⌊v⌋ = ⌊p⌋ := by
    apply Int.floor_eq_iff.mpr
    constructor
    · exact le_trans (Int.floor_le p) h1
    · exact_mod_cast h2
  rw [hfl]

theorem grid_coord_stable_neg (p v : ℚ) (h1 : v ≤ p) (h2 : get_border_coord p (-1) < v) :
    get_grid_coord v (-1) = get_grid_coord p (-1) := by
  unfold get_grid_coord
  simp only [if_neg (by norm_num : ¬ ((-1:ℚ) > 0))]
  unfold get_border_coord at h2
  rw [if_neg (by norm_num : ¬ ((-1:ℚ) > 0))] at h2
  have hcl : ⌈v - 1⌉ = ⌈p - 1⌉ := by
    have hp1 : ⌈p - 1⌉ = ⌈p⌉ - 1 := by
      rw [show (p - 1) = (p + ((-1 : ℤ) : ℚ)) by push_cast; ring, Int.ceil_add_int]
      omega
    rw [hp1]
    apply Int.ceil_eq_iff.mpr
    constructor
    · push_cast
      linarith
    · have := Int.le_ceil p
      push_cast
      linarith
  rw [hcl]

theorem wgHorizAux_head (gy s e : ℚ) (both : Bool) (n : Nat) (x : ℚ) :
    (wgHorizAux gy s e both (n + 1) x).head?
      = some (if both then (⟨get_grid_coord x s, gy - s⟩ : Vec2q)
              else ⟨get_grid_coord x s, gy⟩) := by
  rw [wgHorizAux]
  split <;> cases both <;> simp

theorem wgHorizAux_chain (gy s e : ℚ) (both : Bool) (hs : s = 1 ∨ s = -1) :
    ∀ (fuel : Nat) (x : ℚ), List.Chain' ChebLe1 (wgHorizAux gy s e both fuel x) := by
  have habs : |s| = 1 := by rcases hs with h | h <;> subst h <;> norm_num
  intro fuel
  induction fuel with
  | zero => intro x; exact List.chain'_nil
  | succ n ih =>
    intro x
    have hvis : List.Chain' ChebLe1
        ((if both then [(⟨get_grid_coord x s, gy - s⟩ : Vec2q)] else [])
          ++ [(⟨get_grid_coord x s, gy⟩ : Vec2q)]) := by
      cases both
      · exact List.chain'_singleton _
      · refine List.chain'_cons.mpr ⟨⟨?_, ?_⟩, List.chain'_singleton _⟩
        · show |get_grid_coord x s - get_grid_coord x s| ≤ 1
          rw [sub_self, abs_zero]
          norm_num
        · show |gy - s - gy| ≤ 1
          rw [show gy - s - gy = -s by ring, abs_neg, habs]
    have hlink : ∀ z ∈ ((if both then [(⟨get_grid_coord x s, gy - s⟩ : Vec2q)] else [])
          ++ [(⟨get_grid_coord x s, gy⟩ : Vec2q)]).getLast?,
        ∀ h0 ∈ (wgHorizAux gy s e both n (get_border_coord x s)).head?, ChebLe1 z h0 := by
      intro z hz h0 hh0
      rw [List.getLast?_concat] at hz
      have hz2 : z = ⟨get_grid_coord x s, gy⟩ :=
        (Option.some.inj (Option.mem_def.mp hz)).symm
      cases n with
      | zero => exact absurd hh0 (by simp [wgHorizAux])
      | succ m =>
        rw [wgHorizAux_head] at hh0
        have hh02 : h0 = (if both then (⟨get_grid_coord (get_border_coord x s) s, gy - s⟩ : Vec2q)
            else ⟨get_grid_coord (get_border_coord x s) s, gy⟩) :=
          (Option.some.inj (Option.mem_def.mp hh0)).symm
        subst hz2
        rw [hh02, grid_coord_border_step x s hs]
        cases both
        · refine ⟨?_, ?_⟩
          · show |get_grid_coord x s - (get_grid_coord x s + s)| ≤ 1
            rw [show get_grid_coord x s - (get_grid_coord x s + s) = -s by ring, abs_neg, habs]
          · show |gy - gy| ≤ 1
            rw [sub_self, abs_zero]
            norm_num
        · refine ⟨?_, ?_⟩
          · show |get_grid_coord x s - (get_grid_coord x s + s)| ≤ 1
            rw [show get_grid_coord x s - (get_grid_coord x s + s) = -s by ring, abs_neg, habs]
          · show |gy - (gy - s)| ≤ 1
            rw [show gy - (gy - s) = s by ring, habs]
    rw [wgHorizAux]
    split
    · exact hvis
    · exact List.chain'_append.mpr ⟨hvis, ih (get_border_coord x s), hlink⟩

theorem wgVertAux_head (gx s e : ℚ) (both : Bool) (n : Nat) (y : ℚ) :
    (wgVertAux gx s e both (n + 1) y).head?
      = some (if both then (⟨gx - s, get_grid_coord y s⟩ : Vec2q)
              else ⟨gx, get_grid_coord y s⟩) := by
  rw [wgVertAux]
  split <;> cases both <;> simp

theorem wgVertAux_chain (gx s e : ℚ) (both : Bool) (hs : s = 1 ∨ s = -1) :
    ∀ (fuel : Nat) (y : ℚ), List.Chain' ChebLe1 (wgVertAux gx s e both fuel y) := by
  have habs : |s| = 1 := by rcases hs with h | h <;> subst h <;> norm_num
  intro fuel
  induction fuel with
  | zero => intro y; exact List.chain'_nil
  | succ n ih =>
    intro y
    have hvis : List.Chain' ChebLe1
        ((if both then [(⟨gx - s, get_grid_coord y s⟩ : Vec2q)] else [])
          ++ [(⟨gx, get_grid_coord y s⟩ : Vec2q)]) := by
      cases both
      · exact List.chain'_singleton _
      · refine List.chain'_cons.mpr ⟨⟨?_, ?_⟩, List.chain'_singleton _⟩
        · show |gx - s - gx| ≤ 1
          rw [show gx - s - gx = -s by ring, abs_neg, habs]
        · show |get_grid_coord y s - get_grid_coord y s| ≤ 1
          rw [sub_self, abs_zero]
          norm_num
    have hlink : ∀ z ∈ ((if both then [(⟨gx - s, get_grid_coord y s⟩ : Vec2q)] else [])
          ++ [(⟨gx, get_grid_coord y s⟩ : Vec2q)]).getLast?,
        ∀ h0 ∈ (wgVertAux gx s e both n (get_border_coord y s)).head?, ChebLe1 z h0 := by
      intro z hz h0 hh0
      rw [List.getLast?_concat] at hz
      have hz2 : z = ⟨gx, get_grid_coord y s⟩ :=
        (Option.some.inj (Option.mem_def.mp hz)).symm
      cases n with
      | zero => exact absurd hh0 (by simp [wgVertAux])
      | succ m =>
        rw [wgVertAux_head] at hh0
        have hh02 : h0 = (if both then (⟨gx - s, get_grid_coord (get_border_coord y s) s⟩ : Vec2q)
            else ⟨gx, get_grid_coord (get_border_coord y s) s⟩) :=
          (Option.some.inj (Option.mem_def.mp hh0)).symm
        subst hz2
        rw [hh02, grid_coord_border_step y s hs]
        cases both
        · refine ⟨?_, ?_⟩
          · show |gx - gx| ≤ 1
            rw [sub_self, abs_zero]
            norm_num
          · show |get_grid_coord y s - (get_grid_coord y s + s)| ≤ 1
            rw [show get_grid_coord y s - (get_grid_coord y s + s) = -s by ring, abs_neg, habs]
        · refine ⟨?_, ?_⟩
          · show |gx - (gx - s)| ≤ 1
            rw [show gx - (gx - s) = s by ring, habs]
          · show |get_grid_coord y s - (get_grid_coord y s + s)| ≤ 1
            rw [show get_grid_coord y s - (get_grid_coord y s + s) = -s by ring, abs_neg, habs]
    rw [wgVertAux]
    split
    · exact hvis
    · exact List.chain'_append.mpr ⟨hvis, ih (get_border_coord y s), hlink⟩

theorem Vec2q_sub_x (a b : Vec2q) : (a - b).x = a.x - b.x := rfl

theorem Vec2q_sub_y (a b : Vec2q) : (a - b).y = a.y - b.y := rfl

theorem Vec2q_smul_y (a : Vec2q) (k : ℚ) : (a.smul k).y = a.y * k := rfl

theorem Vec2q_smul_x (a : Vec2q) (k : ℚ) : (a.smul k).x = a.x * k := rfl

theorem t_pos (pc toVc s : ℚ) (hcase : (s = 1 ∧ 0 < toVc) ∨ (s = -1 ∧ toVc < 0)) :
    0 < (get_border_coord pc s - pc) / toVc := by
  rcases hcase with ⟨hs, hv⟩ | ⟨hs, hv⟩ <;> subst hs
  · exact div_pos (by have := lt_border_coord_pos pc; linarith) hv
  · exact div_pos_of_neg_of_neg (by have := border_coord_neg_lt pc; linarith) hv

theorem smul_norm_arg (toV : Vec2q) (t : ℚ) :
    (toV.smul t).x * (toV.smul t).x + (toV.smul t).y * (toV.smul t).y
      = (toV.x * toV.x + toV.y * toV.y) * (t * t) := by
  show (toV.x * t) * (toV.x * t) + (toV.y * t) * (toV.y * t) = _
  ring

theorem t_lt_of_norm_lt (sqrt : ℚ → ℚ) (hmono : ∀ a b : ℚ, a ≤ b → sqrt a ≤ sqrt b)
    (toV : Vec2q) (t_x t_y : ℚ) (htx : 0 < t_x) (hty : 0 < t_y)
    (hn : 0 < toV.x * toV.x + toV.y * toV.y)
    (h : normQ sqrt (toV.smul t_x) < normQ sqrt (toV.smul t_y)) : t_x < t_y := by
  unfold normQ at h
  rw [smul_norm_arg, smul_norm_arg] at h
  have harg : (toV.x * toV.x + toV.y * toV.y) * (t_x * t_x)
      < (toV.x * toV.x + toV.y * toV.y) * (t_y * t_y) := by
    by_contra hc
    push_neg at hc
    exact absurd h (not_lt.mpr (hmono _ _ hc))
  by_contra hc
  push_neg at hc
  have h2 : t_y * t_y ≤ t_x * t_x := mul_le_mul hc hc (le_of_lt hty) (le_of_lt htx)
  have h3 := mul_le_mul_of_nonneg_left h2 (le_of_lt hn)
  linarith

theorem grid_coord_stable_step (pc toVc t t' s : ℚ)
    (hcase : (s = 1 ∧ 0 < toVc) ∨ (s = -1 ∧ toVc < 0))
    (ht0 : 0 ≤ t) (htt : t < t')
    (hb : pc + toVc * t' = get_border_coord pc s) :
    get_grid_coord (pc + toVc * t) s = get_grid_coord pc s := by
  rcases hcase with ⟨hs, hv⟩ | ⟨hs, hv⟩ <;> subst hs
  · apply grid_coord_stable_pos
    · nlinarith
    · rw [← hb]
      nlinarith
  · apply grid_coord_stable_neg
    · nlinarith
    · rw [← hb]
      nlinarith

theorem cheb_border_x (p sign : Vec2q) (v : ℚ) (hsx : sign.x = 1 ∨ sign.x = -1)
    (hv : get_grid_coord v sign.y = get_grid_coord p.y sign.y) :
    ChebLe1 (get_grid p sign) (get_grid ⟨(get_border p sign).x, v⟩ sign) := by
  have hax : |sign.x| = 1 := by rcases hsx with h | h <;> rw [h] <;> norm_num
  refine ⟨?_, ?_⟩
  · show |get_grid_coord p.x sign.x - get_grid_coord (get_border_coord p.x sign.x) sign.x| ≤ 1
    rw [grid_coord_border_step p.x sign.x hsx,
      show get_grid_coord p.x sign.x - (get_grid_coord p.x sign.x + sign.x) = -sign.x by ring,
      abs_neg, hax]
  · show |get_grid_coord p.y sign.y - get_grid_coord v sign.y| ≤ 1
    rw [hv, sub_self, abs_zero]
    norm_num

theorem cheb_border_y (p sign : Vec2q) (v : ℚ) (hsy : sign.y = 1 ∨ sign.y = -1)
    (hv : get_grid_coord v sign.x = get_grid_coord p.x sign.x) :
    ChebLe1 (get_grid p sign) (get_grid ⟨v, (get_border p sign).y⟩ sign) := by
  have hay : |sign.y| = 1 := by rcases hsy with h | h <;> rw [h] <;> norm_num
  refine ⟨?_, ?_⟩
  · show |get_grid_coord p.x sign.x - get_grid_coord v sign.x| ≤ 1
    rw [hv, sub_self, abs_zero]
    norm_num
  · show |get_grid_coord p.y sign.y - get_grid_coord (get_border_coord p.y sign.y) sign.y| ≤ 1
    rw [grid_coord_border_step p.y sign.y hsy,
      show get_grid_coord p.y sign.y - (get_grid_coord p.y sign.y + sign.y) = -sign.y by ring,
      abs_neg, hay]

theorem cheb_corner (p sign : Vec2q) (hsx : sign.x = 1 ∨ sign.x = -1)
    (hsy : sign.y = 1 ∨ sign.y = -1) :
    ChebLe1 (get_grid ⟨(get_border p sign).x, p.y⟩ sign)
      (get_grid ⟨p.x, (get_border p sign).y⟩ sign) := by
  have hax : |sign.x| = 1 := by rcases hsx with h | h <;> rw [h] <;> norm_num
  have hay : |sign.y| = 1 := by rcases hsy with h | h <;> rw [h] <;> norm_num
  refine ⟨?_, ?_⟩
  · show |get_grid_coord (get_border_coord p.x sign.x) sign.x - get_grid_coord p.x sign.x| ≤ 1
    rw [grid_coord_border_step p.x sign.x hsx,
      show get_grid_coord p.x sign.x + sign.x - get_grid_coord p.x sign.x = sign.x by ring, hax]
  · show |get_grid_coord p.y sign.y - get_grid_coord (get_border_coord p.y sign.y) sign.y| ≤ 1
    rw [grid_coord_border_step p.y sign.y hsy,
      show get_grid_coord p.y sign.y - (get_grid_coord p.y sign.y + sign.y) = -sign.y by ring,
      abs_neg, hay]

theorem cheb_corner2 (p sign : Vec2q) (hsx : sign.x = 1 ∨ sign.x = -1) :
    ChebLe1 (get_grid ⟨p.x, (get_border p sign).y⟩ sign) (get_grid (get_border p sign) sign) := by
  have hax : |sign.x| = 1 := by rcases hsx with h | h <;> rw [h] <;> norm_num
  refine ⟨?_, ?_⟩
  · show |get_grid_coord p.x sign.x - get_grid_coord (get_border_coord p.x sign.x) sign.x| ≤ 1
    rw [grid_coord_border_step p.x sign.x hsx,
      show get_grid_coord p.x sign.x - (get_grid_coord p.x sign.x + sign.x) = -sign.x by ring,
      abs_neg, hax]
  · show |get_grid_coord (get_border_coord p.y sign.y) sign.y
        - get_grid_coord (get_border_coord p.y sign.y) sign.y| ≤ 1
    rw [sub_self, abs_zero]
    norm_num

theorem wgDiagAux_chain (sqrt : ℚ → ℚ)
    (hmono : ∀ a b : ℚ, a ≤ b → sqrt a ≤ sqrt b)
    (toV sign endP : Vec2q)
    (hsx : sign.x = 1 ∧ 0 < toV.x ∨ sign.x = -1 ∧ toV.x < 0)
    (hsy : sign.y = 1 ∧ 0 < toV.y ∨ sign.y = -1 ∧ toV.y < 0) :
    ∀ (fuel : Nat) (p : Vec2q),
      List.Chain ChebLe1 (get_grid p sign) (wgDiagAux sqrt toV sign endP fuel p) := by
  have hsx' : sign.x = 1 ∨ sign.x = -1 := by
    rcases hsx with ⟨h, _⟩ | ⟨h, _⟩
    · exact Or.inl h
    · exact Or.inr h
  have hsy' : sign.y = 1 ∨ sign.y = -1 := by
    rcases hsy with ⟨h, _⟩ | ⟨h, _⟩
    · exact Or.inl h
    · exact Or.inr h
  have hxne : toV.x ≠ 0 := by
    rcases hsx with ⟨_, h⟩ | ⟨_, h⟩
    · exact ne_of_gt h
    · exact ne_of_lt h
  have hyne : toV.y ≠ 0 := by
    rcases hsy with ⟨_, h⟩ | ⟨_, h⟩
    · exact ne_of_gt h
    · exact ne_of_lt h
  have hn2 : 0 < toV.x * toV.x + toV.y * toV.y := by
    have h1 : 0 < toV.x * toV.x := mul_self_pos.mpr hxne
    have h2 : 0 ≤ toV.y * toV.y := mul_self_nonneg toV.y
    linarith
  intro fuel
  induction fuel with
  | zero => intro p; exact List.Chain.nil
  | succ n ih =>
    intro p
    have htx : 0 < (get_border p sign - p).x / toV.x := t_pos p.x toV.x sign.x hsx
    have hty : 0 < (get_border p sign - p).y / toV.y := t_pos p.y toV.y sign.y hsy
    have hbx : p.x + toV.x * ((get_border p sign - p).x / toV.x)
        = get_border_coord p.x sign.x := by
      rw [Vec2q_sub_x]
      show p.x + toV.x * ((get_border_coord p.x sign.x - p.x) / toV.x) = _
      field_simp
    have hby : p.y + toV.y * ((get_border p sign - p).y / toV.y)
        = get_border_coord p.y sign.y := by
      rw [Vec2q_sub_y]
      show p.y + toV.y * ((get_border_coord p.y sign.y - p.y) / toV.y) = _
      field_simp
    simp only [wgDiagAux]
    rcases lt_trichotomy
        (normQ sqrt (toV.smul ((get_border p sign - p).x / toV.x)))
        (normQ sqrt (toV.smul ((get_border p sign - p).y / toV.y))) with hA | hE | hB
    · simp only [if_pos hA]
      have htlt := t_lt_of_norm_lt sqrt hmono toV _ _ htx hty hn2 hA
      have hstab : get_grid_coord (p.y + (toV.smul ((get_border p sign - p).x / toV.x)).y) sign.y
          = get_grid_coord p.y sign.y := by
        rw [Vec2q_smul_y]
        exact grid_coord_stable_step p.y toV.y ((get_border p sign - p).x / toV.x)
          ((get_border p sign - p).y / toV.y) sign.y hsy (le_of_lt htx) htlt hby
      have hcheb := cheb_border_x p sign
        (p.y + (toV.smul ((get_border p sign - p).x / toV.x)).y) hsx' hstab
      by_cases hstop : (endP - ((⟨(get_border p sign).x,
          p.y + (toV.smul ((get_border p sign - p).x / toV.x)).y⟩ : Vec2q),
            false).1).signumV ≠ sign
      · rw [if_pos hstop]
        exact List.Chain.nil
      · rw [if_neg hstop]
        exact List.Chain.cons hcheb
          (ih ⟨(get_border p sign).x, p.y + (toV.smul ((get_border p sign - p).x / toV.x)).y⟩)
    · rw [if_neg (show ¬ (normQ sqrt (toV.smul ((get_border p sign - p).x / toV.x))
          < normQ sqrt (toV.smul ((get_border p sign - p).y / toV.y))) by
            rw [hE]
            exact lt_irrefl (normQ sqrt (toV.smul ((get_border p sign - p).y / toV.y)))),
        if_neg (show ¬ (normQ sqrt (toV.smul ((get_border p sign - p).x / toV.x))
          > normQ sqrt (toV.smul ((get_border p sign - p).y / toV.y))) by
            rw [hE]
            exact lt_irrefl (normQ sqrt (toV.smul ((get_border p sign - p).y / toV.y))))]
      have h1 := cheb_border_x p sign p.y hsx' rfl
      have h2 := cheb_corner p sign hsx' hsy'
      have h3 := cheb_corner2 p sign hsx'
      by_cases hstop : (endP - (get_border p sign, true).1).signumV ≠ sign
      · rw [if_pos hstop]
        exact List.Chain.nil
      · rw [if_neg hstop]
        exact List.Chain.cons h1 (List.Chain.cons h2 (List.Chain.cons h3
          (ih (get_border p sign))))
    · rw [if_neg (asymm hB), if_pos hB]
      have htlt := t_lt_of_norm_lt sqrt hmono toV _ _ hty htx hn2 hB
      have hstab : get_grid_coord (p.x + (toV.smul ((get_border p sign - p).y / toV.y)).x) sign.x
          = get_grid_coord p.x sign.x := by
        rw [Vec2q_smul_x]
        exact grid_coord_stable_step p.x toV.x ((get_border p sign - p).y / toV.y)
          ((get_border p sign - p).x / toV.x) sign.x hsx (le_of_lt hty) htlt hbx
      have hcheb := cheb_border_y p sign
        (p.x + (toV.smul ((get_border p sign - p).y / toV.y)).x) hsy' hstab
      by_cases hstop : (endP - ((⟨p.x + (toV.smul ((get_border p sign - p).y / toV.y)).x,
          (get_border p sign).y⟩ : Vec2q), false).1).signumV ≠ sign
      · rw [if_pos hstop]
        exact List.Chain.nil
      · rw [if_neg hstop]
        exact List.Chain.cons hcheb
          (ih ⟨p.x + (toV.smul ((get_border p sign - p).y / toV.y)).x, (get_border p sign).y⟩)

set_option maxRecDepth 4000 in
/-- C8: counterexample.  On the integral-coordinate horizontal walk from
`(0,0)` to `(2,0)` the source emits both the `grid_y - sign` and `grid_y`
cells per column (the sequence asserted by the repository's own
`test_walk_grid_border_by_horizontal`), so the step from `(0,0)` to `(1,-1)`
changes both axes — the visited tiles do not differ on exactly one axis.  And
walking from `(5/2,1/2)` to `(0,1/2)` the loop continues while `left = 0`,
stepping one column past the destination: the final visited tile is `(-1,0)`,
not `floor(b) = (0,0)`. -/
theorem c8_walk_grid_counterexample :
    walk_grid_list sqrtId 20 ⟨0, 0⟩ ⟨2, 0⟩
      = [⟨0, -1⟩, ⟨0, 0⟩, ⟨1, -1⟩, ⟨1, 0⟩, ⟨2, -1⟩, ⟨2, 0⟩] ∧
    ¬ List.Chain' OneAxisStep (walk_grid_list sqrtId 20 ⟨0, 0⟩ ⟨2, 0⟩) ∧
    (walk_grid_list sqrtId 20 ⟨5/2, 1/2⟩ ⟨0, 1/2⟩).getLast?.map Vec2q.floorV
      = some ⟨-1, 0⟩ ∧
    Vec2q.floorV ⟨0, 1/2⟩ = ⟨0, 0⟩ := by
  have hlist : walk_grid_list sqrtId 20 ⟨0, 0⟩ ⟨2, 0⟩
      = [⟨0, -1⟩, ⟨0, 0⟩, ⟨1, -1⟩, ⟨1, 0⟩, ⟨2, -1⟩, ⟨2, 0⟩] := by decide
  refine ⟨hlist, ?_, by decide, by decide⟩
  rw [hlist]
  intro h
  exact absurd (List.chain'_cons.mp ((List.chain'_cons.mp h).2)).1 (by decide)

/-- C8 amended: for every pair of points and any monotone square root (the
`f64::sqrt` used by `Vec2f::norm` is monotone), successive cells visited by
`walk_grid` differ by at most 1 on each axis (Chebyshev distance at most 1;
on exact diagonal border crossings and on walks starting on a grid line both
axes may change at once), for any iteration budget.  The final visited tile
is not always `floor(b)`. -/
theorem c8_walk_grid_cheb (sqrt : ℚ → ℚ)
    (hmono : ∀ a b : ℚ, a ≤ b → sqrt a ≤ sqrt b)
    (fuel : Nat) (a b : Vec2q) :
    List.Chain' ChebLe1 (walk_grid_list sqrt fuel a b) := by
  simp only [walk_grid_list]
  by_cases hd : (b - a).x ≠ 0 ∧ (b - a).y ≠ 0
  · rw [if_pos hd]
    have hsx : ((b - a).signumV).x = 1 ∧ 0 < (b - a).x
        ∨ ((b - a).signumV).x = -1 ∧ (b - a).x < 0 := by
      rcases lt_or_gt_of_ne hd.1 with h | h
      · exact Or.inr ⟨signumQ_neg h, h⟩
      · exact Or.inl ⟨signumQ_pos h, h⟩
    have hsy : ((b - a).signumV).y = 1 ∧ 0 < (b - a).y
        ∨ ((b - a).signumV).y = -1 ∧ (b - a).y < 0 := by
      rcases lt_or_gt_of_ne hd.2 with h | h
      · exact Or.inr ⟨signumQ_neg h, h⟩
      · exact Or.inl ⟨signumQ_pos h, h⟩
    exact wgDiagAux_chain sqrt hmono (b - a) ((b - a).signumV) b hsx hsy fuel a
  · rw [if_neg hd]
    by_cases hy : (b - a).y = 0
    · rw [if_pos hy]
      exact wgHorizAux_chain (get_grid_coord a.y (signumQ (b - a).x)) (signumQ (b - a).x) b.x
        (isIntegralQ a.y) (signumQ_cases (b - a).x) fuel a.x
    · rw [if_neg hy]
      by_cases hx : (b - a).x = 0
      · rw [if_pos hx]
        exact wgVertAux_chain (get_grid_coord a.x (signumQ (b - a).y)) (signumQ (b - a).y) b.y
          (isIntegralQ a.x) (signumQ_cases (b - a).y) fuel a.y
      · rw [if_neg hx]
        exact List.chain'_singleton _

/-- Witness for C8 at a concrete diagonal walk (the identity is a monotone
stand-in for the square root). -/
theorem c8_walk_grid_cheb_witness :
    List.Chain' ChebLe1 (walk_grid_list sqrtId 8 ⟨1/2, 1/2⟩ ⟨5/2, 3/2⟩) :=
  c8_walk_grid_cheb sqrtId (fun _ _ h => h) 8 ⟨1/2, 1/2⟩ ⟨5/2, 3/2⟩

end HB
